import Mathlib

/-!
# Webcamoid: loading and saving the plugin configuration

A shallow embedding of `StandAlone/src/pluginconfigs.cpp`
(`PluginConfigs::convertToAbsolute`, `PluginConfigs::loadProperties`,
`PluginConfigs::saveProperties`) together with the small part of the Qt API
(`QString`, `QVariant`, `QSettings`, `QDir`) and of the plugin registry
(`AkElement`, `Ak`) that these functions call.

* A `QString` is a Lean `String`, a `QStringList` a `List String`.
* A `QSettings` object is the finite map from normalized keys to values it gives
  access to.  A normalized key `a/b/c` is kept as its segments `["a", "b", "c"]`;
  `beginGroup`, `beginReadArray`, `beginWriteArray` and `setArrayIndex` only
  extend the segment list under which `value`, `setValue`, `contains` and
  `allKeys` work, so every call below is given that segment list explicitly.
* C++ `int` counters are unbounded integers: an array would need more than
  `2^31 - 1` entries for the difference to show.
* The two preprocessor variants of the file (`Q_OS_WIN32` defined or not) are
  the two constructors of `Platform`.
-/

namespace PluginConfigs

/-! ## QString -/

/-- Pieces of a character list between occurrences of `sep`, empty pieces kept. -/
def splitOnChar (sep : Char) : List Char → List (List Char)
  | [] => [[]]
  | c :: cs =>
    if c = sep then [] :: splitOnChar sep cs
    else
      match splitOnChar sep cs with
      | [] => [[c]]
      | seg :: rest => (c :: seg) :: rest

/-- The call `QString::split(sep)` with the default `Qt::KeepEmptyParts`. -/
def QString.split (s : String) (sep : Char) : List String :=
  (splitOnChar sep s.data).map String.mk

/-- The call `QString::replace(before, after)` on characters. -/
def QString.replace (s : String) (before after : Char) : String :=
  String.mk (s.data.map fun c => if c = before then after else c)

/-- The call `QString::number(n)` for a non-negative `n`. -/
def QString.number (n : Nat) : String := toString n

/-- The call `QString::toInt()` on a plain decimal numeral; `0` when the text is
not one or does not fit a 32-bit `int`. -/
def QString.toInt (s : String) : Int :=
  match s.toInt? with
  | some n => if -2147483648 ≤ n ∧ n ≤ 2147483647 then n else 0
  | none => 0

/-! ## QVariant -/

/-- The values a settings store or a plugin-info map holds. -/
inductive QVariant where
  | invalid
  | string (s : String)
  | bool (b : Bool)
  | int (n : Int)
  deriving DecidableEq, Repr

/-- The call `QVariant::toString()`. -/
def QVariant.toString : QVariant → String
  | .invalid => ""
  | .string s => s
  | .bool b => if b then "true" else "false"
  | .int n => ToString.toString n

/-- The call `QVariant::toBool()`: a string is true unless its lower-case form is
empty, `0` or `false`. -/
def QVariant.toBool : QVariant → Bool
  | .invalid => false
  | .string s =>
    let lower := String.mk (s.data.map Char.toLower)
    !(lower == "0" || lower == "false" || lower == "")
  | .bool b => b
  | .int n => n != 0

/-- The call `QVariant::toInt()`. -/
def QVariant.toInt : QVariant → Int
  | .invalid => 0
  | .string s => QString.toInt s
  | .bool b => if b then 1 else 0
  | .int n => n

/-- A `QVariantMap`, read through `QVariantMap.value`: the first pair with the
key counts. -/
abbrev QVariantMap := List (String × QVariant)

/-- The call `QMap::keys()`. -/
def QVariantMap.keys (m : QVariantMap) : List String := m.map Prod.fst

/-- The read access `map[key]`. -/
def QVariantMap.value (m : QVariantMap) (key : String) : QVariant :=
  (m.lookup key).getD .invalid

/-- The assignment `map[key] = v`. -/
def QVariantMap.insert (m : QVariantMap) (key : String) (v : QVariant) : QVariantMap :=
  (key, v) :: m

/-! ## QSettings -/

/-- A normalized settings key, as its segments. -/
abbrev Key := List String

/-- The key normalization of `QSettings`: split at `/`, empty segments dropped. -/
def normalizedKey (key : String) : Key :=
  ((splitOnChar '/' key.data).filter fun seg => !seg.isEmpty).map String.mk

/-- The text of a normalized key. -/
def joinKey (k : Key) : String := String.intercalate "/" k

/-- A settings store: the pairs it holds, the first pair with a key counts. -/
structure QSettings where
  entries : List (Key × QVariant)

/-- The call `value(key)` inside the group `group`; an invalid variant when the
key is not set. -/
def QSettings.value (s : QSettings) (group : Key) (key : String) : QVariant :=
  (s.entries.lookup (group ++ normalizedKey key)).getD .invalid

/-- The call `contains(key)` inside the group `group`. -/
def QSettings.contains (s : QSettings) (group : Key) (key : String) : Bool :=
  (s.entries.lookup (group ++ normalizedKey key)).isSome

/-- The call `setValue(key, v)` inside the group `group`; Qt ignores an empty key. -/
def QSettings.setValue (s : QSettings) (group : Key) (key : String) (v : QVariant) :
    QSettings :=
  if (normalizedKey key).isEmpty then s
  else ⟨(group ++ normalizedKey key, v) :: s.entries⟩

/-- The call `remove(key)` inside the group `group`: the key and its sub-keys go. -/
def QSettings.remove (s : QSettings) (group : Key) (key : String) : QSettings :=
  ⟨s.entries.filter fun e => !(group ++ normalizedKey key).isPrefixOf e.1⟩

/-- The call `allKeys()` inside the group `group`: every key below the group,
relative to it. -/
def QSettings.allKeys (s : QSettings) (group : Key) : List String :=
  s.entries.filterMap fun e =>
    if group.isPrefixOf e.1 && !(e.1.drop group.length).isEmpty
    then some (joinKey (e.1.drop group.length)) else none

/-- The group opened by `beginReadArray(name)` or `beginWriteArray(name)` inside
`group`. -/
def arrayGroup (group : Key) (name : String) : Key := group ++ normalizedKey name

/-- The call `beginReadArray(name)` inside `group`: the stored size. -/
def QSettings.beginReadArray (s : QSettings) (group : Key) (name : String) : Int :=
  (s.value (arrayGroup group name) "size").toInt

/-- The group selected by `setArrayIndex(i)` in the array group `arr`. -/
def arrayIndexGroup (arr : Key) (i : Nat) : Key := arr ++ [QString.number (i + 1)]

/-- The call `beginWriteArray(name)` inside `group` (no size given): the old size
is removed. -/
def QSettings.beginWriteArray (s : QSettings) (group : Key) (name : String) : QSettings :=
  s.remove (arrayGroup group name) "size"

/-- The call `endArray()` closing a `beginWriteArray(name)`: the size guessed from
the indexes set is written, `guess` being the largest index set plus one. -/
def QSettings.endArray (s : QSettings) (group : Key) (name : String) (guess : Nat) :
    QSettings :=
  s.setValue (arrayGroup group name) "size" (.int guess)

/-! ## QDir and the two builds -/

/-- The `QDir` calls of the Windows build; `absoluteFilePath` and
`relativeFilePath` are those of the application directory. -/
structure Win32Dir where
  isRelativePath : String → Bool
  cleanPath : String → String
  absoluteFilePath : String → String
  relativeFilePath : String → String

/-- The build: `Q_OS_WIN32` undefined (`posix`) or defined (`win32`). -/
inductive Platform where
  | posix
  | win32 (applicationDir : Win32Dir)

/-- The value of `QDir::separator()`. -/
def Platform.separator : Platform → Char
  | .posix => '/'
  | .win32 _ => '\\'

/-- The call `QDir::toNativeSeparators(path)`: the path itself except on Windows. -/
def toNativeSeparators (pf : Platform) (path : String) : String :=
  match pf with
  | .posix => path
  | .win32 _ => QString.replace path '/' '\\'

/-- The method `PluginConfigs::convertToAbsolute`, used by the Windows build only. -/
def convertToAbsolute (dir : Win32Dir) (path : String) : String :=
  if !dir.isRelativePath path then dir.cleanPath path
  else
    let absPath := dir.absoluteFilePath path
    QString.replace (dir.cleanPath absPath) '/' (Platform.separator (.win32 dir))

/-- The normalization applied to a path before it is compared and appended:
`convertToAbsolute` under `Q_OS_WIN32`, then `QDir::toNativeSeparators`. -/
def normalize (pf : Platform) (path : String) : String :=
  match pf with
  | .posix => toNativeSeparators pf path
  | .win32 dir => toNativeSeparators pf (convertToAbsolute dir path)

/-- The path written by `saveProperties`: relative to the application directory
under `Q_OS_WIN32`, the path itself otherwise. -/
def storedPath (pf : Platform) (path : String) : String :=
  match pf with
  | .posix => path
  | .win32 dir => dir.relativeFilePath path

/-! ## Collaborators -/

/-- Modelled from the spec: the command-line options snapshot `CliOptions`, whose
declaration is not part of the sources at hand, queried through `isSet` and
`value` for four options.  For an option with a value, `some v` when `isSet`
holds and `value` is `v`. -/
structure CliOptions where
  blackListOpt : Option String
  qmlPathOpt : Option String
  recursiveOpt : Bool
  pluginPathsOpt : Option String

/-- Modelled from the spec: the plugin registry facade (the static interface of
`AkElement` and `Ak`, whose code is not part of the sources at hand).  Each
getter returns what the matching setter stored last; `pluginId` is the external
function from a plugin path to its id, and a plugin info is kept per id. -/
structure Registry where
  pluginsBlackList : List String
  qmlImportPathList : List String
  recursiveSearch : Bool
  searchPaths : List String
  listPluginPaths : List String
  pluginId : String → String
  pluginInfo : String → QVariantMap

/-- Modelled from the spec: the setter `AkElement::setPluginsBlackList`. -/
def Registry.setPluginsBlackList (r : Registry) (l : List String) : Registry :=
  { r with pluginsBlackList := l }

/-- Modelled from the spec: the setter `Ak::setQmlImportPathList`. -/
def Registry.setQmlImportPathList (r : Registry) (l : List String) : Registry :=
  { r with qmlImportPathList := l }

/-- Modelled from the spec: the setter `AkElement::setRecursiveSearch`. -/
def Registry.setRecursiveSearch (r : Registry) (b : Bool) : Registry :=
  { r with recursiveSearch := b }

/-- Modelled from the spec: the setter `AkElement::setSearchPaths`. -/
def Registry.setSearchPaths (r : Registry) (l : List String) : Registry :=
  { r with searchPaths := l }

/-- Modelled from the spec: the setter `AkElement::setPluginPaths`. -/
def Registry.setPluginPaths (r : Registry) (l : List String) : Registry :=
  { r with listPluginPaths := l }

/-- Modelled from the spec: the setter `AkElement::setPluginInfo(path, info)`; the
info is associated with the id of the plugin at `path`. -/
def Registry.setPluginInfo (r : Registry) (path : String) (info : QVariantMap) : Registry :=
  { r with pluginInfo := fun id => if id = r.pluginId path then info else r.pluginInfo id }

/-- Everything `loadProperties` and `saveProperties` read or change: the registry,
the settings store `QSettings config`, the cache store
`QSettings cacheConfig(COMMONS_APPNAME, "PluginsCache")`, the field `m_plugins`
and the payloads of the `pluginsChanged` signals emitted so far. -/
structure World where
  registry : Registry
  config : QSettings
  cacheConfig : QSettings
  m_plugins : List String
  emitted : List (List String)

/-! ## PluginConfigs::loadProperties -/

/-- The group opened by `beginGroup(name)` inside `group`. -/
def beginGroup (group : Key) (name : String) : Key := group ++ normalizedKey name

/-- The statement `if (!list.contains(path)) list << path;`. -/
def appendUnique (list : List String) (path : String) : List String :=
  if !list.contains path then list ++ [path] else list

/-- The block of `loadProperties` under "Load the list of plugins to be avoided":
the list given to `AkElement::setPluginsBlackList`, from the list `blackList`
returned by `AkElement::pluginsBlackList()`. -/
def loadBlackList (pf : Platform) (cliOptions : CliOptions) (config : QSettings)
    (blackList : List String) : List String :=
  let group := beginGroup [] "PluginBlackList"
  match cliOptions.blackListOpt with
  | some value =>
    (QString.split value ';').foldl
      (fun blackList path => appendUnique blackList (normalize pf path)) blackList
  | none =>
    let size := config.beginReadArray group "paths"
    (List.range size.toNat).foldl
      (fun blackList i =>
        let path := (config.value (arrayIndexGroup (arrayGroup group "paths") i) "path").toString
        appendUnique blackList (normalize pf path))
      blackList

/-- The block of `loadProperties` under "Set Qml plugins search path": the local
list `qmlImportPaths`; `fileExists path` is `QFileInfo(path).exists()`. -/
def loadQmlImportPaths (pf : Platform) (fileExists : String → Bool) (cliOptions : CliOptions)
    (config : QSettings) : List String :=
  let group := beginGroup [] "PluginConfigs"
  match cliOptions.qmlPathOpt with
  | some value =>
    (QString.split value ';').foldl
      (fun qmlImportPaths path =>
        if fileExists path then qmlImportPaths ++ [path] else qmlImportPaths)
      []
  | none =>
    let size := config.beginReadArray group "qmlPaths"
    (List.range size.toNat).foldl
      (fun qmlImportPaths i =>
        let path := (config.value (arrayIndexGroup (arrayGroup group "qmlPaths") i) "path").toString
        let path := normalize pf path
        if !qmlImportPaths.contains path && fileExists path then qmlImportPaths ++ [path]
        else qmlImportPaths)
      []

/-- The block of `loadProperties` under "Set recusive search", on the registry. -/
def loadRecursive (cliOptions : CliOptions) (config : QSettings) (registry : Registry) :
    Registry :=
  let group := beginGroup [] "PluginConfigs"
  if cliOptions.recursiveOpt then registry.setRecursiveSearch true
  else if config.contains group "recursive" then
    registry.setRecursiveSearch (config.value group "recursive").toBool
  else registry

/-- The block of `loadProperties` under "Set alternative paths to search for
plugins": the list given to `AkElement::setSearchPaths`, from the list
`searchPaths` returned by `AkElement::searchPaths()`. -/
def loadSearchPaths (pf : Platform) (cliOptions : CliOptions) (config : QSettings)
    (searchPaths : List String) : List String :=
  let group := beginGroup [] "PluginConfigs"
  match cliOptions.pluginPathsOpt with
  | some value =>
    (QString.split value ';').foldl
      (fun searchPaths path => appendUnique searchPaths (normalize pf path)) searchPaths
  | none =>
    let size := config.beginReadArray group "paths"
    (List.range size.toNat).foldl
      (fun searchPaths i =>
        let path := (config.value (arrayIndexGroup (arrayGroup group "paths") i) "path").toString
        appendUnique searchPaths (normalize pf path))
      searchPaths

/-- The block of `loadProperties` under "Load plugins hashes": the local list
`pluginsPaths` read from the cache store. -/
def loadPluginsPaths (cacheConfig : QSettings) : List String :=
  let group := beginGroup [] "PluginsPaths"
  let size := cacheConfig.beginReadArray group "paths"
  (List.range size.toNat).foldl
    (fun pluginsPaths i =>
      pluginsPaths ++
        [(cacheConfig.value (arrayIndexGroup (arrayGroup group "paths") i) "path").toString])
    []

/-- The group `Plugin_<id>` of the cache store, `QString("Plugin_%1").arg(id)`. -/
def pluginGroup (pluginId : String) : Key := beginGroup [] ("Plugin_" ++ pluginId)

/-- The map `pluginInfo` that the last loop of `loadProperties` builds for one
plugin id from all keys of its cache group. -/
def loadPluginInfo (cacheConfig : QSettings) (pluginId : String) : QVariantMap :=
  let group := pluginGroup pluginId
  (cacheConfig.allKeys group).foldl
    (fun pluginInfo key => pluginInfo.insert key (cacheConfig.value group key)) []

/-- The method `PluginConfigs::loadProperties(cliOptions)`. -/
def loadProperties (pf : Platform) (fileExists : String → Bool) (cliOptions : CliOptions)
    (w : World) : World :=
  let config := w.config
  let blackList := loadBlackList pf cliOptions config w.registry.pluginsBlackList
  let registry := w.registry.setPluginsBlackList blackList
  let qmlImportPaths := loadQmlImportPaths pf fileExists cliOptions config
  let registry :=
    if !qmlImportPaths.isEmpty then registry.setQmlImportPathList qmlImportPaths else registry
  let registry := loadRecursive cliOptions config registry
  let searchPaths := loadSearchPaths pf cliOptions config registry.searchPaths
  let registry := registry.setSearchPaths searchPaths
  let cacheConfig := w.cacheConfig
  let pluginsPaths := loadPluginsPaths cacheConfig
  let registry := registry.setPluginPaths pluginsPaths
  let registry := pluginsPaths.foldl
    (fun registry path =>
      registry.setPluginInfo path (loadPluginInfo cacheConfig (registry.pluginId path)))
    registry
  { w with registry := registry, m_plugins := registry.listPluginPaths }

/-! ## PluginConfigs::saveProperties -/

/-- One array-writing loop of `saveProperties`: `beginWriteArray(name)`, then for
each path `setArrayIndex(i); setValue("path", stored path); i++`, then
`endArray()`. -/
def writePathArray (s : QSettings) (group : Key) (name : String) (stored : String → String)
    (paths : List String) : QSettings :=
  let s := s.beginWriteArray group name
  let si := paths.foldl
    (fun (si : QSettings × Nat) path =>
      (si.1.setValue (arrayIndexGroup (arrayGroup group name) si.2) "path"
        (.string (stored path)), si.2 + 1))
    (s, 0)
  si.1.endArray group name si.2

/-- The last loop of `saveProperties` for one plugin path: every key of the
plugin info goes to the cache group of the plugin id. -/
def savePluginInfo (registry : Registry) (cacheConfig : QSettings) (path : String) :
    QSettings :=
  let pluginId := registry.pluginId path
  let group := pluginGroup pluginId
  let pluginInfo := registry.pluginInfo pluginId
  pluginInfo.keys.foldl
    (fun cacheConfig key => cacheConfig.setValue group key (pluginInfo.value key)) cacheConfig

/-- The method `PluginConfigs::saveProperties()`. -/
def saveProperties (pf : Platform) (w : World) : World :=
  let config := w.config
  let config := writePathArray config (beginGroup [] "PluginBlackList") "paths"
    (storedPath pf) w.registry.pluginsBlackList
  let group := beginGroup [] "PluginConfigs"
  let config := writePathArray config group "qmlPaths" (storedPath pf)
    w.registry.qmlImportPathList
  let config := config.setValue group "recursive" (.bool w.registry.recursiveSearch)
  let config := writePathArray config group "paths" (storedPath pf) w.registry.searchPaths
  let cacheConfig := w.cacheConfig
  let pluginsPaths := w.registry.listPluginPaths
  let cacheConfig := writePathArray cacheConfig (beginGroup [] "PluginsPaths") "paths" id
    pluginsPaths
  let cacheConfig := pluginsPaths.foldl (savePluginInfo w.registry) cacheConfig
  if w.m_plugins != pluginsPaths then
    { w with config := config, cacheConfig := cacheConfig, m_plugins := pluginsPaths,
             emitted := w.emitted ++ [pluginsPaths] }
  else
    { w with config := config, cacheConfig := cacheConfig }

/-! ## Notions used to state the properties -/

/-- The entries of a list, each kept once, at the place of its first occurrence. -/
def firstOccurrences : List String → List String
  | [] => []
  | x :: xs => x :: (firstOccurrences xs).filter fun y => y != x

/-- The stable merge in the words of the specification: `existing`, followed by the
normalized candidates that are not in `existing`, each kept once at its first
occurrence and in the order of the candidates. -/
def stableMerge (pf : Platform) (existing candidates : List String) : List String :=
  existing ++
    firstOccurrences ((candidates.map (normalize pf)).filter fun p => !existing.contains p)

/-- The persisted array `name` of the group `group`, as a reader that calls
`beginReadArray(name)`, `setArrayIndex(i)` and `value("path").toString()` sees it. -/
def persistedPaths (s : QSettings) (group : Key) (name : String) : List String :=
  (List.range (s.beginReadArray group name).toNat).map fun i =>
    (s.value (arrayIndexGroup (arrayGroup group name) i) "path").toString

/-- A plain name: not empty and without `/`, so a settings key of one segment. -/
def plainName (s : String) : Prop := s ≠ "" ∧ '/' ∉ s.data

instance (s : String) : Decidable (plainName s) :=
  inferInstanceAs (Decidable (s ≠ "" ∧ '/' ∉ s.data))

/-- The value of the digits of a decimal numeral. -/
def decimalValue (l : List Char) : Nat := l.foldl (fun a c => 10 * a + (c.toNat - 48)) 0

/-! ## Example states -/

/-- The entries of a store array `arr` holding the paths `l`. -/
def arrayEntries (arr : Key) (l : List String) : List (Key × QVariant) :=
  (arr ++ ["size"], .int l.length) ::
    l.enum.map fun ip => (arr ++ [QString.number (ip.1 + 1), "path"], QVariant.string ip.2)

/-- A registry with empty lists, recursion off, no plugin info, and the path of a
plugin as its id. -/
def emptyRegistry : Registry :=
  { pluginsBlackList := [], qmlImportPathList := [], recursiveSearch := false,
    searchPaths := [], listPluginPaths := [], pluginId := fun path => path,
    pluginInfo := fun _ => [] }

/-- No command-line option set. -/
def noOptions : CliOptions :=
  { blackListOpt := none, qmlPathOpt := none, recursiveOpt := false, pluginPathsOpt := none }

/-- A state around a registry and the entries of the two stores, with `m_plugins`
empty and no signal emitted yet. -/
def mkWorld (registry : Registry) (config cacheConfig : List (Key × QVariant)) : World :=
  { registry := registry, config := ⟨config⟩, cacheConfig := ⟨cacheConfig⟩,
    m_plugins := [], emitted := [] }

/-- Settings entries whose persisted blacklist and search paths are both `l`. -/
def persistedLists (l : List String) : List (Key × QVariant) :=
  arrayEntries ["PluginBlackList", "paths"] l ++ arrayEntries ["PluginConfigs", "paths"] l

/-- An empty registry and persisted lists `["/c"]`. -/
def precedenceWorld : World := mkWorld emptyRegistry (persistedLists ["/c"]) []

/-- The options `/a;/b` for the blacklist and for the plugin search paths. -/
def precedenceOptions : CliOptions :=
  { blackListOpt := some "/a;/b", qmlPathOpt := none, recursiveOpt := false,
    pluginPathsOpt := some "/a;/b" }

/-- Existing lists `["/a"]` and persisted lists `["/a", "/b"]`. -/
def mergeWorld : World :=
  mkWorld { emptyRegistry with pluginsBlackList := ["/a"], searchPaths := ["/a"] }
    (persistedLists ["/a", "/b"]) []

/-- A cache store whose path array holds the same path twice. -/
def duplicateWorld : World :=
  mkWorld emptyRegistry [] (arrayEntries ["PluginsPaths", "paths"] ["/p", "/p"])

/-- The QML option naming the same path twice. -/
def duplicateOptions : CliOptions :=
  { blackListOpt := none, qmlPathOpt := some "/q;/q", recursiveOpt := false,
    pluginPathsOpt := none }

/-- A file system on which only `/real` exists. -/
def onlyReal (path : String) : Bool := path == "/real"

/-- The path `/ghost` given as QML path and as plugin search path. -/
def ghostOptions : CliOptions :=
  { blackListOpt := none, qmlPathOpt := some "/ghost;/real", recursiveOpt := false,
    pluginPathsOpt := some "/ghost" }

/-- Lists with an empty segment for the blacklist and the plugin search paths. -/
def emptySegmentOptions : CliOptions :=
  { blackListOpt := some "/a;;/b", qmlPathOpt := none, recursiveOpt := false,
    pluginPathsOpt := some "/a;;/b" }

/-- The id of the one plugin of the examples. -/
def examplePluginId (path : String) : String :=
  if path = "/lib/libFoo.so" then "Foo" else "Other"

/-- A registry with one plugin, `/lib/libFoo.so`, and the QML paths `qml`. -/
def fooRegistry (qml : List String) : Registry :=
  { pluginsBlackList := ["/x"], qmlImportPathList := qml, recursiveSearch := true,
    searchPaths := ["/s"], listPluginPaths := ["/lib/libFoo.so"],
    pluginId := examplePluginId,
    pluginInfo := fun id => if id = "Foo" then [("version", .string "2")] else [] }

/-- A file system on which only `/here` exists. -/
def onlyHere (path : String) : Bool := path == "/here"

/-- A registry holding a QML path that does not exist, and a cache store holding
a key of an older save in the group of the plugin. -/
def staleWorld : World :=
  mkWorld (fooRegistry ["/here", "/gone"]) [] [(["Plugin_Foo", "old"], .string "1")]

/-- A registry whose QML path exists; the stores hold what an earlier run with an
older version of the plugin and with another plugin left. -/
def freshWorld : World :=
  mkWorld (fooRegistry ["/here"]) (persistedLists ["/c"])
    (arrayEntries ["PluginsPaths", "paths"] ["/lib/libOld.so", "/lib/libFoo.so"] ++
      [(["Plugin_Old", "hash"], .string "77"), (["Plugin_Foo", "version"], .string "1")])

/-- A settings store with the key `recursive` set, in a state with recursion off. -/
def recursiveWorld : World :=
  mkWorld emptyRegistry [(["PluginConfigs", "recursive"], .bool true)] []

/-- The option `recursive` alone. -/
def recursiveOptions : CliOptions :=
  { blackListOpt := none, qmlPathOpt := none, recursiveOpt := true, pluginPathsOpt := none }

/-- A cache store listing one plugin path, in a state whose `m_plugins` is empty. -/
def cachedWorld : World :=
  mkWorld emptyRegistry (persistedLists ["/c"]) (arrayEntries ["PluginsPaths", "paths"] ["/p"])

/-! ## Lists -/

theorem firstOccurrences_filter (p : String → Bool) : ∀ M : List String,
    firstOccurrences (M.filter p) = (firstOccurrences M).filter p := by
  intro M
  induction M with
  | nil => rfl
  | cons y M ih =>
    by_cases hy : p y = true
    · simp only [List.filter_cons, hy, if_true, firstOccurrences, ih, List.filter_filter]
      congr 1
      apply List.filter_congr
      intro x _
      simp [Bool.and_comm]
    · simp only [List.filter_cons, hy, firstOccurrences, List.filter_filter]
      simp only [Bool.false_eq_true, if_false]
      rw [ih]
      apply List.filter_congr
      intro x _
      by_cases hx : p x = true
      · have : x ≠ y := fun e => hy (e ▸ hx)
        simp [hx, this]
      · simp [hx]

theorem foldl_appendUnique (f : String → String) : ∀ (L E : List String),
    L.foldl (fun acc p => appendUnique acc (f p)) E
      = E ++ firstOccurrences ((L.map f).filter fun p => !E.contains p) := by
  intro L
  induction L with
  | nil => intro E; simp [firstOccurrences]
  | cons x L ih =>
    intro E
    simp only [List.foldl_cons, List.map_cons, List.filter_cons]
    rw [ih]
    by_cases hx : (f x) ∈ E
    · have h1 : appendUnique E (f x) = E := by simp [appendUnique, hx]
      simp [h1, hx]
    · have h1 : appendUnique E (f x) = E ++ [f x] := by simp [appendUnique, hx]
      rw [h1]
      have h2 : (!E.contains (f x)) = true := by simp [hx]
      simp only [h2, if_true, firstOccurrences, List.append_assoc, List.singleton_append]
      congr 2
      rw [← firstOccurrences_filter, List.filter_filter]
      congr 1
      apply List.filter_congr
      intro y _
      by_cases hy : y = f x
      · simp [hy]
      · simp [hy, Bool.and_comm]

theorem firstOccurrences_nodup : ∀ L : List String, (firstOccurrences L).Nodup := by
  intro L
  induction L with
  | nil => simp [firstOccurrences]
  | cons x L ih =>
    simp only [firstOccurrences, List.nodup_cons, List.mem_filter]
    exact ⟨by simp, ih.filter _⟩

theorem firstOccurrences_of_nodup : ∀ L : List String, L.Nodup → firstOccurrences L = L := by
  intro L
  induction L with
  | nil => intro _; rfl
  | cons x L ih =>
    intro h
    rw [List.nodup_cons] at h
    simp only [firstOccurrences, ih h.2]
    congr 1
    rw [List.filter_eq_self]
    intro y hy
    have : y ≠ x := fun e => h.1 (e ▸ hy)
    simp [this]

theorem mem_firstOccurrences (L : List String) (x : String) :
    x ∈ firstOccurrences L ↔ x ∈ L := by
  induction L with
  | nil => simp [firstOccurrences]
  | cons y L ih =>
    simp only [firstOccurrences, List.mem_cons, List.mem_filter, ih]
    by_cases h : x = y <;> simp [h]

/-! ## The blocks of loadProperties -/

theorem group_blackList : beginGroup [] "PluginBlackList" = ["PluginBlackList"] := by decide
theorem group_configs : beginGroup [] "PluginConfigs" = ["PluginConfigs"] := by decide
theorem group_pluginsPaths : beginGroup [] "PluginsPaths" = ["PluginsPaths"] := by decide

theorem loadBlackList_cli (pf : Platform) (cli : CliOptions) (config : QSettings)
    (E : List String) (v : String) (h : cli.blackListOpt = some v) :
    loadBlackList pf cli config E = stableMerge pf E (QString.split v ';') := by
  simp only [loadBlackList, h, stableMerge]
  exact foldl_appendUnique (normalize pf) _ E

theorem loadBlackList_persisted (pf : Platform) (cli : CliOptions) (config : QSettings)
    (E : List String) (h : cli.blackListOpt = none) :
    loadBlackList pf cli config E
      = stableMerge pf E (persistedPaths config ["PluginBlackList"] "paths") := by
  simp only [loadBlackList, h, stableMerge, persistedPaths, group_blackList]
  rw [← foldl_appendUnique (normalize pf), List.foldl_map]

theorem loadSearchPaths_cli (pf : Platform) (cli : CliOptions) (config : QSettings)
    (E : List String) (v : String) (h : cli.pluginPathsOpt = some v) :
    loadSearchPaths pf cli config E = stableMerge pf E (QString.split v ';') := by
  simp only [loadSearchPaths, h, stableMerge]
  exact foldl_appendUnique (normalize pf) _ E

theorem loadSearchPaths_persisted (pf : Platform) (cli : CliOptions) (config : QSettings)
    (E : List String) (h : cli.pluginPathsOpt = none) :
    loadSearchPaths pf cli config E
      = stableMerge pf E (persistedPaths config ["PluginConfigs"] "paths") := by
  simp only [loadSearchPaths, h, stableMerge, persistedPaths, group_configs]
  rw [← foldl_appendUnique (normalize pf), List.foldl_map]

theorem foldl_snoc_eq_map {α : Type} (g : α → String) : ∀ (L : List α) (E : List String),
    L.foldl (fun acc i => acc ++ [g i]) E = E ++ L.map g := by
  intro L
  induction L with
  | nil => intro E; simp
  | cons x L ih => intro E; simp [ih]

theorem loadPluginsPaths_eq (cache : QSettings) :
    loadPluginsPaths cache = persistedPaths cache ["PluginsPaths"] "paths" := by
  simp only [loadPluginsPaths, persistedPaths, group_pluginsPaths]
  rw [foldl_snoc_eq_map]
  simp

/-- The registry after the last loop of `loadProperties`, for any way `F` of
building the info of a plugin id: only the plugin infos of the listed paths
change. -/
theorem foldl_setPluginInfo (F : String → QVariantMap) : ∀ (paths : List String) (r : Registry),
    (paths.foldl (fun r p => r.setPluginInfo p (F (r.pluginId p))) r) =
      { r with pluginInfo := fun id =>
          if id ∈ paths.map r.pluginId then F id else r.pluginInfo id } := by
  intro paths
  induction paths with
  | nil => intro r; simp
  | cons p paths ih =>
    intro r
    rw [List.foldl_cons, ih]
    simp only [Registry.setPluginInfo, List.map_cons, List.mem_cons]
    congr 1
    funext id
    by_cases h1 : id ∈ paths.map r.pluginId
    · simp [h1]
    · by_cases h2 : id = r.pluginId p
      · simp [h1, h2]
      · simp [h1, h2]

theorem loadProperties_registry (pf : Platform) (fe : String → Bool) (cli : CliOptions)
    (w : World) :
    (loadProperties pf fe cli w).registry =
      { pluginsBlackList := loadBlackList pf cli w.config w.registry.pluginsBlackList
        qmlImportPathList :=
          if (loadQmlImportPaths pf fe cli w.config).isEmpty then w.registry.qmlImportPathList
          else loadQmlImportPaths pf fe cli w.config
        recursiveSearch :=
          if cli.recursiveOpt then true
          else match w.config.entries.lookup ["PluginConfigs", "recursive"] with
            | some v => v.toBool
            | none => w.registry.recursiveSearch
        searchPaths := loadSearchPaths pf cli w.config w.registry.searchPaths
        listPluginPaths := loadPluginsPaths w.cacheConfig
        pluginId := w.registry.pluginId
        pluginInfo := fun id =>
          if id ∈ (loadPluginsPaths w.cacheConfig).map w.registry.pluginId
          then loadPluginInfo w.cacheConfig id else w.registry.pluginInfo id } := by
  have hkey : beginGroup [] "PluginConfigs" ++ normalizedKey "recursive"
      = ["PluginConfigs", "recursive"] := by decide
  simp only [loadProperties]
  rw [foldl_setPluginInfo (loadPluginInfo w.cacheConfig)]
  simp only [loadRecursive, QSettings.contains, QSettings.value, hkey]
  cases hq : (loadQmlImportPaths pf fe cli w.config).isEmpty <;>
  cases hr : cli.recursiveOpt <;>
  cases hl : w.config.entries.lookup ["PluginConfigs", "recursive"] <;>
  simp [Registry.setPluginsBlackList, Registry.setQmlImportPathList,
    Registry.setRecursiveSearch, Registry.setSearchPaths, Registry.setPluginPaths]

/-! ## Settings stores -/

theorem digitChar_toNat : ∀ d, d < 10 → (Nat.digitChar d).toNat - 48 = d := by
  decide

theorem foldl_toDigitsCore (fuel : Nat) : ∀ (n : Nat) (ds : List Char), n < fuel →
    (Nat.toDigitsCore 10 fuel n ds).foldl (fun a c => 10 * a + (c.toNat - 48)) 0
      = ds.foldl (fun a c => 10 * a + (c.toNat - 48)) n := by
  induction fuel with
  | zero => intro n ds h; omega
  | succ fuel ih =>
    intro n ds h
    have hd : (Nat.digitChar (n % 10)).toNat - 48 = n % 10 :=
      digitChar_toNat _ (Nat.mod_lt _ (by decide))
    unfold Nat.toDigitsCore
    by_cases h0 : n / 10 = 0
    · simp only [h0, if_true, List.foldl_cons, hd]
      have : n % 10 = n := Nat.mod_eq_of_lt (by omega)
      simp [this]
    · simp only [h0, if_false]
      rw [ih (n / 10) _ (by omega)]
      simp only [List.foldl_cons, hd]
      congr 1
      omega

theorem decimalValue_toDigits (n : Nat) : decimalValue (Nat.toDigits 10 n) = n := by
  unfold decimalValue Nat.toDigits
  rw [foldl_toDigitsCore (n + 1) n [] (by omega)]
  rfl

theorem number_injective {n m : Nat} (h : QString.number n = QString.number m) : n = m := by
  have h1 : Nat.toDigits 10 n = Nat.toDigits 10 m := by
    have := congrArg String.data h
    simpa [QString.number, toString, Nat.repr, List.asString] using this
  rw [← decimalValue_toDigits n, ← decimalValue_toDigits m, h1]

/-! ### Association lists -/

theorem lookup_append_of_mem {K : Key} {v : QVariant} : ∀ (A B : List (Key × QVariant)),
    (∃ e ∈ A, e.1 = K) → (∀ e ∈ A, e.1 = K → e.2 = v) → (A ++ B).lookup K = some v := by
  intro A
  induction A with
  | nil => intro B h; obtain ⟨e, he, _⟩ := h; cases he
  | cons a A ih =>
    intro B hex hall
    obtain ⟨k, x⟩ := a
    by_cases hk : K = k
    · subst hk
      have := hall (K, x) (List.mem_cons_self _ _) rfl
      simp at this
      simp [List.lookup_cons, this]
    · have hk2 : (K == k) = false := by simpa using hk
      simp only [List.cons_append, List.lookup_cons, hk2]
      apply ih
      · obtain ⟨e, he, hek⟩ := hex
        rcases List.mem_cons.1 he with h | h
        · subst h; exact absurd hek.symm hk
        · exact ⟨e, h, hek⟩
      · intro e he; exact hall e (List.mem_cons_of_mem _ he)

theorem lookup_append_of_not_mem {K : Key} : ∀ (A B : List (Key × QVariant)),
    (∀ e ∈ A, e.1 ≠ K) → (A ++ B).lookup K = B.lookup K := by
  intro A
  induction A with
  | nil => intro B _; rfl
  | cons a A ih =>
    intro B hall
    obtain ⟨k, x⟩ := a
    have hk : K ≠ k := fun e => hall (k, x) (List.mem_cons_self _ _) e.symm
    have hk2 : (K == k) = false := by simpa using hk
    simp only [List.cons_append, List.lookup_cons, hk2]
    exact ih B fun e he => hall e (List.mem_cons_of_mem _ he)

theorem lookup_filter (q : Key → Bool) (K : Key) : ∀ l : List (Key × QVariant),
    (l.filter fun e => q e.1).lookup K = if q K then l.lookup K else none := by
  intro l
  induction l with
  | nil => simp
  | cons a l ih =>
    obtain ⟨k, x⟩ := a
    by_cases hk : K = k
    · subst hk
      by_cases hq : q K = true
      · simp [List.filter_cons, hq, List.lookup_cons]
      · simp [List.filter_cons, hq, ih]
    · have hk2 : (K == k) = false := by simpa using hk
      by_cases hq : q k = true
      · simp [List.filter_cons, hq, List.lookup_cons, hk2, ih]
      · simp [List.filter_cons, hq, List.lookup_cons, hk2, ih]

/-- The entries after a loop of `setValue` calls: the pairs written, in front of
the old entries. -/
theorem foldl_setValue {α : Type} (g : α → Key) (k : α → String) (v : α → QVariant) :
    ∀ (L : List α) (s : QSettings),
    ∃ A, (L.foldl (fun s x => s.setValue (g x) (k x) (v x)) s).entries = A ++ s.entries ∧
      ∀ e, e ∈ A ↔ ∃ x ∈ L, normalizedKey (k x) ≠ [] ∧ e = (g x ++ normalizedKey (k x), v x) := by
  intro L
  induction L with
  | nil => intro s; exact ⟨[], by simp⟩
  | cons x L ih =>
    intro s
    obtain ⟨A, hA, hmem⟩ := ih (s.setValue (g x) (k x) (v x))
    by_cases hx : normalizedKey (k x) = []
    · refine ⟨A, ?_, ?_⟩
      · rw [List.foldl_cons, hA]; simp [QSettings.setValue, hx]
      · intro e
        rw [hmem]
        constructor
        · rintro ⟨y, hy, h⟩; exact ⟨y, List.mem_cons_of_mem _ hy, h⟩
        · rintro ⟨y, hy, h⟩
          rcases List.mem_cons.1 hy with h1 | h1
          · subst h1; exact absurd hx h.1
          · exact ⟨y, h1, h⟩
    · refine ⟨A ++ [(g x ++ normalizedKey (k x), v x)], ?_, ?_⟩
      · rw [List.foldl_cons, hA]
        have : (normalizedKey (k x)).isEmpty = false := by
          cases h : normalizedKey (k x) with
          | nil => exact absurd h hx
          | cons a b => rfl
        simp [QSettings.setValue, this]
      · intro e
        rw [List.mem_append, hmem]
        constructor
        · rintro (⟨y, hy, h⟩ | h)
          · exact ⟨y, List.mem_cons_of_mem _ hy, h⟩
          · exact ⟨x, List.mem_cons_self _ _, hx, by simpa using h⟩
        · rintro ⟨y, hy, h⟩
          rcases List.mem_cons.1 hy with h1 | h1
          · subst h1; right; simpa using h.2
          · left; exact ⟨y, h1, h⟩


/-! ### Arrays of a settings store -/

theorem key_size : normalizedKey "size" = ["size"] := by decide
theorem key_path : normalizedKey "path" = ["path"] := by decide

theorem foldl_counter (step : QSettings → Nat → String → QSettings) :
    ∀ (paths : List String) (s : QSettings) (n0 : Nat),
    paths.foldl (fun (si : QSettings × Nat) path => (step si.1 si.2 path, si.2 + 1)) (s, n0)
      = ((paths.enumFrom n0).foldl (fun s ip => step s ip.1 ip.2) s, n0 + paths.length) := by
  intro paths
  induction paths with
  | nil => intro s n0; rfl
  | cons p paths ih =>
    intro s n0
    simp only [List.foldl_cons, List.enumFrom_cons, List.length_cons]
    rw [ih]
    congr 1
    omega

theorem setValue_entries (s : QSettings) (group : Key) (key : String) (v : QVariant)
    (h : normalizedKey key ≠ []) :
    (s.setValue group key v).entries = (group ++ normalizedKey key, v) :: s.entries := by
  cases hk : normalizedKey key with
  | nil => exact absurd hk h
  | cons a b => simp [QSettings.setValue, hk]

/-- The entries of a store after one array-writing loop of `saveProperties`. -/
theorem writePathArray_entries (s : QSettings) (group : Key) (name : String)
    (stored : String → String) (paths : List String) :
    ∃ A, (writePathArray s group name stored paths).entries
        = (arrayGroup group name ++ ["size"], QVariant.int paths.length) ::
          (A ++ s.entries.filter fun e => !(arrayGroup group name ++ ["size"]).isPrefixOf e.1) ∧
      ∀ e, e ∈ A ↔ ∃ ip ∈ paths.enum,
        e = (arrayGroup group name ++ [QString.number (ip.1 + 1), "path"],
              QVariant.string (stored ip.2)) := by
  obtain ⟨A, hA, hmem⟩ := foldl_setValue
    (fun ip : Nat × String => arrayIndexGroup (arrayGroup group name) ip.1)
    (fun _ => "path") (fun ip => QVariant.string (stored ip.2)) (paths.enumFrom 0)
    (s.beginWriteArray group name)
  refine ⟨A, ?_, ?_⟩
  · simp only [writePathArray]
    rw [foldl_counter (fun s i path => s.setValue (arrayIndexGroup (arrayGroup group name) i)
      "path" (QVariant.string (stored path)))]
    simp only [QSettings.endArray]
    rw [setValue_entries _ _ _ _ (by decide), hA]
    simp [QSettings.beginWriteArray, QSettings.remove, key_size]
  · intro e
    rw [hmem]
    simp only [key_path, arrayIndexGroup, List.append_assoc, List.singleton_append, ne_eq,
      List.cons_ne_nil, not_false_eq_true, true_and, List.enum]

theorem not_size_prefix {arr K : Key} (h : ¬ arr <+: K) : ¬ (arr ++ ["size"]) <+: K :=
  fun h2 => h ((List.prefix_append arr ["size"]).trans h2)

theorem lookup_writePathArray_size (s : QSettings) (group : Key) (name : String)
    (stored : String → String) (paths : List String) :
    (writePathArray s group name stored paths).entries.lookup (arrayGroup group name ++ ["size"])
      = some (QVariant.int paths.length) := by
  obtain ⟨A, hA, _⟩ := writePathArray_entries s group name stored paths
  rw [hA]
  simp

theorem lookup_writePathArray_path (s : QSettings) (group : Key) (name : String)
    (stored : String → String) (paths : List String) (i : Nat) (hi : i < paths.length) :
    (writePathArray s group name stored paths).entries.lookup
        (arrayGroup group name ++ [QString.number (i + 1), "path"])
      = some (QVariant.string (stored paths[i])) := by
  obtain ⟨A, hA, hmem⟩ := writePathArray_entries s group name stored paths
  rw [hA]
  have hne : (arrayGroup group name ++ [QString.number (i + 1), "path"]
      == arrayGroup group name ++ ["size"]) = false := by
    simp
  rw [List.lookup_cons, hne]
  apply lookup_append_of_mem
  · refine ⟨_, (hmem _).2 ⟨(i, paths[i]), ?_, rfl⟩, rfl⟩
    rw [List.mem_enum_iff_getElem?]
    simp [hi]
  · intro e he hk
    obtain ⟨ip, hip, rfl⟩ := (hmem e).1 he
    rw [List.mem_enum_iff_getElem?] at hip
    simp only [List.append_cancel_left_eq, List.cons.injEq, and_true] at hk
    have hj : ip.1 = i := by
      have := number_injective hk
      omega
    have hlt : ip.1 < paths.length := by
      rcases Nat.lt_or_ge ip.1 paths.length with h | h
      · exact h
      · rw [List.getElem?_eq_none h] at hip; cases hip
    rw [List.getElem?_eq_getElem hlt] at hip
    simp only [Option.some.injEq] at hip
    subst hj
    simp [hip]

theorem lookup_writePathArray_frame (s : QSettings) (group : Key) (name : String)
    (stored : String → String) (paths : List String) (K : Key)
    (hK : ¬ arrayGroup group name <+: K) :
    (writePathArray s group name stored paths).entries.lookup K = s.entries.lookup K := by
  obtain ⟨A, hA, hmem⟩ := writePathArray_entries s group name stored paths
  rw [hA]
  have hne : (K == arrayGroup group name ++ ["size"]) = false := by
    simp only [beq_eq_false_iff_ne, ne_eq]
    intro h
    exact hK (h ▸ List.prefix_append _ _)
  rw [List.lookup_cons, hne, lookup_append_of_not_mem]
  · rw [lookup_filter (fun k => !(arrayGroup group name ++ ["size"]).isPrefixOf k)]
    have : (arrayGroup group name ++ ["size"]).isPrefixOf K = false := by
      rw [Bool.eq_false_iff]
      intro h
      exact not_size_prefix hK (List.isPrefixOf_iff_prefix.1 h)
    simp [this]
  · intro e he hk
    obtain ⟨ip, _, rfl⟩ := (hmem e).1 he
    exact hK (hk ▸ List.prefix_append _ _)

theorem persistedPaths_of_lookup (s : QSettings) (group : Key) (name : String)
    (L : List String)
    (hsize : s.entries.lookup (arrayGroup group name ++ ["size"]) = some (QVariant.int L.length))
    (hpath : ∀ i (hi : i < L.length),
      s.entries.lookup (arrayGroup group name ++ [QString.number (i + 1), "path"])
        = some (QVariant.string L[i])) :
    persistedPaths s group name = L := by
  apply List.ext_getElem
  · simp [persistedPaths, QSettings.beginReadArray, QSettings.value, key_size, hsize,
      QVariant.toInt]
  · intro i h1 h2
    simp [persistedPaths, QSettings.value, key_path, arrayIndexGroup, hpath i h2,
      QVariant.toString]

theorem persistedPaths_congr (s t : QSettings) (group : Key) (name : String)
    (h : ∀ K, arrayGroup group name <+: K → t.entries.lookup K = s.entries.lookup K) :
    persistedPaths t group name = persistedPaths s group name := by
  simp only [persistedPaths, QSettings.beginReadArray, QSettings.value, arrayIndexGroup]
  rw [h _ (List.prefix_append _ _)]
  apply List.map_congr_left
  intro i _
  rw [h _ (by rw [List.append_assoc]; exact List.prefix_append _ _)]

theorem persistedPaths_writePathArray (s : QSettings) (group : Key) (name : String)
    (stored : String → String) (paths : List String) :
    persistedPaths (writePathArray s group name stored paths) group name = paths.map stored := by
  apply persistedPaths_of_lookup
  · simpa using lookup_writePathArray_size s group name stored paths
  · intro i hi
    have hi2 : i < paths.length := by simpa using hi
    simpa using lookup_writePathArray_path s group name stored paths i hi2


theorem splitOnChar_of_not_mem (sep : Char) : ∀ l : List Char, sep ∉ l →
    splitOnChar sep l = [l] := by
  intro l
  induction l with
  | nil => intro _; rfl
  | cons c cs ih =>
    intro h
    rw [List.mem_cons, not_or] at h
    have hc : c ≠ sep := fun e => h.1 e.symm
    simp [splitOnChar, hc, ih h.2]

theorem splitOnChar_cons_of_ne (sep c : Char) (cs : List Char) (hc : c ≠ sep) :
    ∃ seg rest, splitOnChar sep cs = seg :: rest ∧
      splitOnChar sep (c :: cs) = (c :: seg) :: rest := by
  cases h : splitOnChar sep cs with
  | nil => 
    exfalso
    cases cs with
    | nil => simp [splitOnChar] at h
    | cons d ds =>
      simp only [splitOnChar] at h
      split at h
      · cases h
      · split at h <;> cases h
  | cons seg rest => exact ⟨seg, rest, rfl, by simp [splitOnChar, hc, h]⟩

theorem normalizedKey_of_plainName (s : String) (h : plainName s) : normalizedKey s = [s] := by
  obtain ⟨h1, h2⟩ := h
  have hd : s.data ≠ [] := fun e => h1 (String.ext e)
  have : (s.data.isEmpty) = false := by
    cases hs : s.data with
    | nil => exact absurd hs hd
    | cons a b => rfl
  simp [normalizedKey, splitOnChar_of_not_mem '/' s.data h2, this]

theorem pluginGroup_of_plain (id : String) (h : '/' ∉ id.data) :
    pluginGroup id = ["Plugin_" ++ id] := by
  have hp : plainName ("Plugin_" ++ id) := by
    constructor
    · intro e
      have := congrArg String.data e
      simp at this
    · simp [h]
  simp [pluginGroup, beginGroup, normalizedKey_of_plainName _ hp]

theorem pluginGroup_head (id : String) :
    ∃ h t, pluginGroup id = h :: t ∧ h ≠ "PluginsPaths" := by
  obtain ⟨s0, r0, h0, -⟩ := splitOnChar_cons_of_ne '/' '_' id.data (by decide)
  have hsplit : splitOnChar '/' ("Plugin_" ++ id).data
      = ('P' :: 'l' :: 'u' :: 'g' :: 'i' :: 'n' :: '_' :: s0) :: r0 := by
    have : ("Plugin_" ++ id).data = 'P' :: 'l' :: 'u' :: 'g' :: 'i' :: 'n' :: '_' :: id.data := by
      simp
    rw [this]
    simp [splitOnChar, h0]
  refine ⟨String.mk ('P' :: 'l' :: 'u' :: 'g' :: 'i' :: 'n' :: '_' :: s0),
    (r0.filter fun seg => !seg.isEmpty).map String.mk, ?_, ?_⟩
  · simp only [pluginGroup, beginGroup, normalizedKey, List.nil_append]
    rw [hsplit]
    simp [List.filter_cons]
  · intro e
    have := congrArg String.data e
    simp at this

theorem joinKey_singleton (k : String) : joinKey [k] = k := by
  simp [joinKey, String.intercalate, String.intercalate.go]

theorem lookup_foldl_insert (f : String → QVariant) (k : String) :
    ∀ (keys : List String) (m0 : QVariantMap),
    (keys.foldl (fun m key => QVariantMap.insert m key (f key)) m0).lookup k
      = if k ∈ keys then some (f k) else m0.lookup k := by
  intro keys
  induction keys with
  | nil => intro m0; simp
  | cons x keys ih =>
    intro m0
    rw [List.foldl_cons, ih]
    by_cases h1 : k ∈ keys
    · simp [h1]
    · by_cases h2 : k = x
      · subst h2; simp [h1, QVariantMap.insert]
      · have : (k == x) = false := by simpa using h2
        simp [h1, h2, QVariantMap.insert, List.lookup_cons, this]

theorem lookup_loadPluginInfo (c : QSettings) (id k : String) :
    (loadPluginInfo c id).lookup k
      = if k ∈ c.allKeys (pluginGroup id) then some (c.value (pluginGroup id) k) else none := by
  simp only [loadPluginInfo]
  rw [lookup_foldl_insert (fun key => c.value (pluginGroup id) key)]
  simp

theorem mem_allKeys (c : QSettings) (G : Key) (k : String) :
    k ∈ c.allKeys G ↔
      ∃ e ∈ c.entries, G <+: e.1 ∧ e.1.drop G.length ≠ [] ∧ joinKey (e.1.drop G.length) = k := by
  simp only [QSettings.allKeys, List.mem_filterMap]
  constructor
  · rintro ⟨e, he, h⟩
    split at h
    · rename_i hc
      simp only [Bool.and_eq_true, List.isPrefixOf_iff_prefix, Bool.not_eq_true',
        List.isEmpty_eq_false] at hc
      exact ⟨e, he, hc.1, hc.2, by simpa using h⟩
    · cases h
  · rintro ⟨e, he, h1, h2, h3⟩
    refine ⟨e, he, ?_⟩
    have : (G.isPrefixOf e.1 && !(e.1.drop G.length).isEmpty) = true := by
      simp only [Bool.and_eq_true, List.isPrefixOf_iff_prefix, Bool.not_eq_true',
        List.isEmpty_eq_false]
      exact ⟨h1, h2⟩
    simp [this, h3]

/-- The entries of the cache store after the last loop of `saveProperties`. -/
theorem savePluginInfo_entries (reg : Registry) : ∀ (paths : List String) (c : QSettings),
    ∃ A, (paths.foldl (savePluginInfo reg) c).entries = A ++ c.entries ∧
      ∀ e, e ∈ A ↔ ∃ path ∈ paths, ∃ key ∈ (reg.pluginInfo (reg.pluginId path)).keys,
        normalizedKey key ≠ [] ∧
        e = (pluginGroup (reg.pluginId path) ++ normalizedKey key,
              (reg.pluginInfo (reg.pluginId path)).value key) := by
  intro paths
  induction paths with
  | nil => intro c; exact ⟨[], by simp⟩
  | cons p paths ih =>
    intro c
    obtain ⟨A1, hA1, hm1⟩ := foldl_setValue (fun _ : String => pluginGroup (reg.pluginId p))
      (fun key => key) (fun key => (reg.pluginInfo (reg.pluginId p)).value key)
      (reg.pluginInfo (reg.pluginId p)).keys c
    obtain ⟨A2, hA2, hm2⟩ := ih (savePluginInfo reg c p)
    refine ⟨A2 ++ A1, ?_, ?_⟩
    · rw [List.foldl_cons, hA2]
      simp only [savePluginInfo]
      rw [hA1, List.append_assoc]
    · intro e
      rw [List.mem_append, hm1, hm2]
      constructor
      · rintro (⟨q, hq, h⟩ | ⟨key, hkey, h⟩)
        · exact ⟨q, List.mem_cons_of_mem _ hq, h⟩
        · exact ⟨p, List.mem_cons_self _ _, key, hkey, h⟩
      · rintro ⟨q, hq, h⟩
        rcases List.mem_cons.1 hq with h1 | h1
        · subst h1
          obtain ⟨key, hkey, h⟩ := h
          exact Or.inr ⟨key, hkey, h⟩
        · exact Or.inl ⟨q, h1, h⟩


theorem saveProperties_config (pf : Platform) (w : World) :
    (saveProperties pf w).config =
      writePathArray
        ((writePathArray
            (writePathArray w.config ["PluginBlackList"] "paths" (storedPath pf)
              w.registry.pluginsBlackList)
            ["PluginConfigs"] "qmlPaths" (storedPath pf) w.registry.qmlImportPathList).setValue
          ["PluginConfigs"] "recursive" (QVariant.bool w.registry.recursiveSearch))
        ["PluginConfigs"] "paths" (storedPath pf) w.registry.searchPaths := by
  simp only [saveProperties, group_blackList, group_configs]
  split <;> rfl

theorem saveProperties_cacheConfig (pf : Platform) (w : World) :
    (saveProperties pf w).cacheConfig =
      w.registry.listPluginPaths.foldl (savePluginInfo w.registry)
        (writePathArray w.cacheConfig ["PluginsPaths"] "paths" id w.registry.listPluginPaths) := by
  simp only [saveProperties, group_pluginsPaths]
  split <;> rfl

theorem saveProperties_registry (pf : Platform) (w : World) :
    (saveProperties pf w).registry = w.registry := by
  simp only [saveProperties]
  split <;> rfl

theorem prefix_disjoint {A B K : Key} (hlen : A.length = B.length) (hne : A ≠ B)
    (hA : A <+: K) : ¬ B <+: K := by
  intro hB
  have h1 : A <+: B := List.prefix_of_prefix_length_le hA hB (le_of_eq hlen)
  exact hne (h1.eq_of_length hlen)

theorem lookup_setValue_frame (s : QSettings) (group : Key) (key : String) (v : QVariant)
    (K : Key) (hK : K ≠ group ++ normalizedKey key) :
    (s.setValue group key v).entries.lookup K = s.entries.lookup K := by
  unfold QSettings.setValue
  split
  · rfl
  · have : (K == group ++ normalizedKey key) = false := by simpa using hK
    simp [List.lookup_cons, this]

theorem persistedPaths_blackList_saved (pf : Platform) (w : World) :
    persistedPaths (saveProperties pf w).config ["PluginBlackList"] "paths"
      = w.registry.pluginsBlackList.map (storedPath pf) := by
  rw [saveProperties_config, ← persistedPaths_writePathArray w.config ["PluginBlackList"] "paths"]
  apply persistedPaths_congr
  intro K hK
  have hg : arrayGroup ["PluginBlackList"] "paths" = ["PluginBlackList", "paths"] := by decide
  rw [hg] at hK
  rw [lookup_writePathArray_frame _ _ _ _ _ _ (prefix_disjoint (by decide) (by decide) hK),
    lookup_setValue_frame _ _ _ _ _ (by
      intro e
      exact prefix_disjoint (B := ["PluginConfigs", "recursive"]) (by decide) (by decide) hK
        (e ▸ List.prefix_refl _)),
    lookup_writePathArray_frame _ _ _ _ _ _ (prefix_disjoint (by decide) (by decide) hK)]

theorem persistedPaths_qmlPaths_saved (pf : Platform) (w : World) :
    persistedPaths (saveProperties pf w).config ["PluginConfigs"] "qmlPaths"
      = w.registry.qmlImportPathList.map (storedPath pf) := by
  rw [saveProperties_config, ← persistedPaths_writePathArray
    (writePathArray w.config ["PluginBlackList"] "paths" (storedPath pf)
      w.registry.pluginsBlackList) ["PluginConfigs"] "qmlPaths"]
  apply persistedPaths_congr
  intro K hK
  have hg : arrayGroup ["PluginConfigs"] "qmlPaths" = ["PluginConfigs", "qmlPaths"] := by decide
  rw [hg] at hK
  rw [lookup_writePathArray_frame _ _ _ _ _ _ (prefix_disjoint (by decide) (by decide) hK),
    lookup_setValue_frame _ _ _ _ _ (by
      intro e
      exact prefix_disjoint (B := ["PluginConfigs", "recursive"]) (by decide) (by decide) hK
        (e ▸ List.prefix_refl _))]

theorem persistedPaths_paths_saved (pf : Platform) (w : World) :
    persistedPaths (saveProperties pf w).config ["PluginConfigs"] "paths"
      = w.registry.searchPaths.map (storedPath pf) := by
  rw [saveProperties_config, persistedPaths_writePathArray]

theorem lookup_recursive_saved (pf : Platform) (w : World) :
    (saveProperties pf w).config.entries.lookup ["PluginConfigs", "recursive"]
      = some (QVariant.bool w.registry.recursiveSearch) := by
  rw [saveProperties_config, lookup_writePathArray_frame _ _ _ _ _ _ (by decide),
    setValue_entries _ _ _ _ (by decide)]
  have : ["PluginConfigs"] ++ normalizedKey "recursive" = ["PluginConfigs", "recursive"] := by
    decide
  rw [this, List.lookup_cons_self]

theorem persistedPaths_pluginsPaths_saved (pf : Platform) (w : World) :
    persistedPaths (saveProperties pf w).cacheConfig ["PluginsPaths"] "paths"
      = w.registry.listPluginPaths := by
  rw [saveProperties_cacheConfig]
  have h := persistedPaths_writePathArray w.cacheConfig ["PluginsPaths"] "paths" id
    w.registry.listPluginPaths
  rw [List.map_id] at h
  rw [← h]
  apply persistedPaths_congr
  intro K hK
  rw [h]
  obtain ⟨A, hA, hmem⟩ := savePluginInfo_entries w.registry w.registry.listPluginPaths
    (writePathArray w.cacheConfig ["PluginsPaths"] "paths" id w.registry.listPluginPaths)
  rw [hA]
  apply lookup_append_of_not_mem
  intro e he hek
  obtain ⟨path, _, key, _, _, rfl⟩ := (hmem e).1 he
  obtain ⟨hd, tl, hg, hne⟩ := pluginGroup_head (w.registry.pluginId path)
  have hg2 : arrayGroup ["PluginsPaths"] "paths" = ["PluginsPaths", "paths"] := by decide
  rw [hg2] at hK
  obtain ⟨t, ht⟩ := hK
  simp only at hek
  rw [hg, ← ht] at hek
  simp at hek
  exact hne hek.1

theorem mem_writePathArray_entries (s : QSettings) (group : Key) (name : String)
    (stored : String → String) (paths : List String) (e : Key × QVariant)
    (he : e ∈ (writePathArray s group name stored paths).entries) :
    arrayGroup group name <+: e.1 ∨ e ∈ s.entries := by
  obtain ⟨A, hA, hmem⟩ := writePathArray_entries s group name stored paths
  rw [hA] at he
  rcases List.mem_cons.1 he with h | h
  · left; rw [h]; exact List.prefix_append _ _
  · rcases List.mem_append.1 h with h | h
    · left
      obtain ⟨ip, _, rfl⟩ := (hmem e).1 h
      exact List.prefix_append _ _
    · right; exact (List.mem_filter.1 h).1

theorem mem_keys_of_lookup {m : QVariantMap} {k : String} {v : QVariant}
    (h : m.lookup k = some v) : k ∈ m.keys ∧ m.value k = v := by
  constructor
  · have h2 : (m.lookup k).isSome = true := by rw [h]; rfl
    rw [List.lookup_isSome_iff] at h2
    obtain ⟨p, hp, hk⟩ := h2
    simp only [beq_iff_eq] at hk
    exact List.mem_map.2 ⟨p, hp, hk.symm⟩
  · simp [QVariantMap.value, h]

theorem lookup_ne_none_of_mem_keys {m : QVariantMap} {k : String} (h : k ∈ m.keys) :
    m.lookup k ≠ none := by
  intro hn
  rw [List.lookup_eq_none_iff] at hn
  obtain ⟨p, hp, hk⟩ := List.mem_map.1 h
  have := hn p hp
  simp [hk] at this

theorem pluginName_injective {a b : String} (h : "Plugin_" ++ a = "Plugin_" ++ b) : a = b := by
  have := congrArg String.data h
  simp at this
  exact String.ext this

/-- The plugin info that `loadProperties` rebuilds from the cache store written by
`saveProperties`, when ids and info keys are plain names and the cache store held
in the group of the plugin no other keys than those of its info. -/
theorem loadPluginInfo_saved (pf : Platform) (w : World) (path : String)
    (hpath : path ∈ w.registry.listPluginPaths)
    (hid : ∀ q ∈ w.registry.listPluginPaths, '/' ∉ (w.registry.pluginId q).data)
    (hkeys : ∀ q ∈ w.registry.listPluginPaths,
      ∀ key ∈ (w.registry.pluginInfo (w.registry.pluginId q)).keys, plainName key)
    (hfresh : ∀ e ∈ w.cacheConfig.entries, pluginGroup (w.registry.pluginId path) <+: e.1 →
      ∃ key ∈ (w.registry.pluginInfo (w.registry.pluginId path)).keys,
        e.1 = pluginGroup (w.registry.pluginId path) ++ [key])
    (k : String) :
    (loadPluginInfo (saveProperties pf w).cacheConfig (w.registry.pluginId path)).lookup k
      = (w.registry.pluginInfo (w.registry.pluginId path)).lookup k := by
  rw [lookup_loadPluginInfo, saveProperties_cacheConfig]
  obtain ⟨A, hA, hmem⟩ := savePluginInfo_entries w.registry w.registry.listPluginPaths
    (writePathArray w.cacheConfig ["PluginsPaths"] "paths" id w.registry.listPluginPaths)
  have hG := pluginGroup_of_plain _ (hid path hpath)
  -- every pair written by the save has a two-segment key
  have hshape : ∀ e ∈ A, ∃ q ∈ w.registry.listPluginPaths,
      ∃ key ∈ (w.registry.pluginInfo (w.registry.pluginId q)).keys,
        e = (["Plugin_" ++ w.registry.pluginId q, key],
              (w.registry.pluginInfo (w.registry.pluginId q)).value key) := by
    intro e he
    obtain ⟨q, hq, key, hkey, _, rfl⟩ := (hmem e).1 he
    refine ⟨q, hq, key, hkey, ?_⟩
    rw [pluginGroup_of_plain _ (hid q hq), normalizedKey_of_plainName _ (hkeys q hq key hkey)]
    rfl
  cases hl : (w.registry.pluginInfo (w.registry.pluginId path)).lookup k with
  | some v =>
    obtain ⟨hk, hv⟩ := mem_keys_of_lookup hl
    have hplain := hkeys path hpath k hk
    have hnk := normalizedKey_of_plainName k hplain
    have he0 : (["Plugin_" ++ w.registry.pluginId path, k],
        (w.registry.pluginInfo (w.registry.pluginId path)).value k) ∈ A := by
      rw [hmem]
      refine ⟨path, hpath, k, hk, by rw [hnk]; simp, ?_⟩
      rw [hG, hnk]; rfl
    have hin : k ∈ QSettings.allKeys
        (List.foldl (savePluginInfo w.registry)
          (writePathArray w.cacheConfig ["PluginsPaths"] "paths" id w.registry.listPluginPaths)
          w.registry.listPluginPaths) (pluginGroup (w.registry.pluginId path)) := by
      rw [mem_allKeys, hA, hG]
      refine ⟨_, List.mem_append_left _ he0, ?_, ?_, ?_⟩
      · exact List.prefix_append _ [k]
      · simp
      · simp [joinKey_singleton]
    rw [if_pos hin]
    simp only [QSettings.value, hA, hG, hnk]
    have hlk : (A ++ (writePathArray w.cacheConfig ["PluginsPaths"] "paths" id
        w.registry.listPluginPaths).entries).lookup
          (["Plugin_" ++ w.registry.pluginId path] ++ [k]) = some v := by
      apply lookup_append_of_mem A _ ⟨_, he0, rfl⟩
      intro e he hek
      obtain ⟨q, hq, key, hkey, rfl⟩ := hshape e he
      simp only [List.singleton_append, List.cons.injEq, and_true] at hek
      have h1 := pluginName_injective hek.1
      rw [h1, hek.2]
      exact hv
    rw [hlk]
    rfl
  | none =>
    have hnot : k ∉ QSettings.allKeys
        (List.foldl (savePluginInfo w.registry)
          (writePathArray w.cacheConfig ["PluginsPaths"] "paths" id w.registry.listPluginPaths)
          w.registry.listPluginPaths) (pluginGroup (w.registry.pluginId path)) := by
      rw [mem_allKeys, hA]
      rintro ⟨e, he, hpre, hdrop, hjoin⟩
      rcases List.mem_append.1 he with h | h
      · obtain ⟨q, hq, key, hkey, rfl⟩ := hshape e h
        rw [hG] at hpre hjoin
        obtain ⟨t, ht⟩ := hpre
        simp only [List.singleton_append, List.cons.injEq] at ht
        have h1 := pluginName_injective ht.1
        simp only [List.length_singleton, List.drop_succ_cons, List.drop_zero,
          joinKey_singleton] at hjoin
        rw [← h1, hjoin] at hkey
        exact lookup_ne_none_of_mem_keys hkey hl
      · rcases mem_writePathArray_entries _ _ _ _ _ e h with h2 | h2
        · obtain ⟨hd, tl, hg, hne⟩ := pluginGroup_head (w.registry.pluginId path)
          rw [hg] at hpre
          have hg2 : arrayGroup ["PluginsPaths"] "paths" = ["PluginsPaths", "paths"] := by decide
          rw [hg2] at h2
          obtain ⟨t1, ht1⟩ := hpre
          obtain ⟨t2, ht2⟩ := h2
          rw [← ht2] at ht1
          simp at ht1
          exact hne ht1.1
        · obtain ⟨key, hkey, hek⟩ := hfresh e h2 hpre
          rw [hek, hG] at hjoin
          simp only [List.length_singleton, List.singleton_append, List.drop_succ_cons,
            List.drop_zero, joinKey_singleton] at hjoin
          rw [hjoin] at hkey
          exact lookup_ne_none_of_mem_keys hkey hl
    rw [if_neg hnot]

/-! ## Further facts about the two methods -/

theorem foldl_exists_filter (fe : String → Bool) : ∀ (L E : List String),
    L.foldl (fun q p => if fe p then q ++ [p] else q) E = E ++ L.filter fe := by
  intro L
  induction L with
  | nil => intro E; simp
  | cons x L ih =>
    intro E
    rw [List.foldl_cons, ih]
    by_cases h : fe x = true <;> simp [h, List.filter_cons]

theorem foldl_exists_unique (fe : String → Bool) : ∀ (L E : List String),
    L.foldl (fun q p => if !q.contains p && fe p then q ++ [p] else q) E
      = (L.filter fe).foldl (fun acc p => appendUnique acc (id p)) E := by
  intro L
  induction L with
  | nil => intro E; rfl
  | cons x L ih =>
    intro E
    rw [List.foldl_cons, ih]
    by_cases h : fe x = true
    · simp [h, List.filter_cons, appendUnique]
    · simp [h, List.filter_cons]

theorem loadQmlImportPaths_cli (pf : Platform) (fe : String → Bool) (cli : CliOptions)
    (config : QSettings) (v : String) (h : cli.qmlPathOpt = some v) :
    loadQmlImportPaths pf fe cli config = (QString.split v ';').filter fe := by
  simp only [loadQmlImportPaths, h]
  rw [foldl_exists_filter]
  rfl

theorem loadQmlImportPaths_persisted (pf : Platform) (fe : String → Bool) (cli : CliOptions)
    (config : QSettings) (h : cli.qmlPathOpt = none) :
    loadQmlImportPaths pf fe cli config
      = firstOccurrences
          (((persistedPaths config ["PluginConfigs"] "qmlPaths").map (normalize pf)).filter fe) := by
  simp only [loadQmlImportPaths, h, group_configs, persistedPaths]
  have := foldl_exists_unique fe
    (((List.range (config.beginReadArray ["PluginConfigs"] "qmlPaths").toNat).map fun i =>
      (config.value (arrayIndexGroup (arrayGroup ["PluginConfigs"] "qmlPaths") i)
        "path").toString).map (normalize pf)) []
  rw [List.foldl_map, List.foldl_map] at this
  rw [this, foldl_appendUnique id]
  simp

theorem stableMerge_nodup (pf : Platform) (E L : List String) (h : E.Nodup) :
    (stableMerge pf E L).Nodup := by
  unfold stableMerge
  rw [List.nodup_append]
  refine ⟨h, firstOccurrences_nodup _, ?_⟩
  intro x hx hx2
  rw [mem_firstOccurrences, List.mem_filter] at hx2
  simp [hx] at hx2

theorem mem_stableMerge (pf : Platform) (E L : List String) (x : String) :
    x ∈ stableMerge pf E L ↔ x ∈ E ∨ x ∈ L.map (normalize pf) := by
  unfold stableMerge
  rw [List.mem_append, mem_firstOccurrences, List.mem_filter]
  by_cases hx : x ∈ E <;> simp [hx]

theorem loadProperties_m_plugins (pf : Platform) (fe : String → Bool) (cli : CliOptions)
    (w : World) : (loadProperties pf fe cli w).m_plugins = loadPluginsPaths w.cacheConfig := by
  have h := congrArg Registry.listPluginPaths (loadProperties_registry pf fe cli w)
  simp only at h
  rw [← h]
  rfl

theorem saveProperties_emitted (pf : Platform) (w : World) :
    (saveProperties pf w).emitted
      = if w.m_plugins = w.registry.listPluginPaths then w.emitted
        else w.emitted ++ [w.registry.listPluginPaths] := by
  simp only [saveProperties]
  by_cases h : w.m_plugins = w.registry.listPluginPaths
  · simp [h]
  · simp [h]

theorem saveProperties_m_plugins (pf : Platform) (w : World) :
    (saveProperties pf w).m_plugins = w.registry.listPluginPaths := by
  simp only [saveProperties]
  by_cases h : w.m_plugins = w.registry.listPluginPaths
  · simp [h]
  · simp [h]

theorem map_storedPath_posix (L : List String) : L.map (storedPath .posix) = L := by
  induction L with
  | nil => rfl
  | cons x L ih => rw [List.map_cons, ih]; rfl

theorem map_normalize_posix (L : List String) : L.map (normalize .posix) = L := by
  induction L with
  | nil => rfl
  | cons x L ih => rw [List.map_cons, ih]; rfl

theorem stableMerge_self (E : List String) : stableMerge .posix E E = E := by
  unfold stableMerge
  rw [map_normalize_posix]
  have : (E.filter fun p => !E.contains p) = [] := by
    rw [List.filter_eq_nil_iff]
    intro x hx
    simp [hx]
  rw [this]
  simp [firstOccurrences]

/-! ## The properties -/

/-- C1. Precedence of the command line in `loadProperties`: when the blacklist
option (resp. the plugin search-path option) is set to `v`, the list pushed to the
registry is the stable merge of the registry's existing list with the segments of
`v` split at `;`, and it is the same whatever settings store `config'` is read,
so the persisted array plays no part. -/
theorem loadProperties_cli_precedence (pf : Platform) (fe : String → Bool) (cli : CliOptions)
    (w : World) (config' : QSettings) :
    (∀ v, cli.blackListOpt = some v →
      (loadProperties pf fe cli w).registry.pluginsBlackList
          = stableMerge pf w.registry.pluginsBlackList (QString.split v ';') ∧
        (loadProperties pf fe cli { w with config := config' }).registry.pluginsBlackList
          = (loadProperties pf fe cli w).registry.pluginsBlackList) ∧
    (∀ v, cli.pluginPathsOpt = some v →
      (loadProperties pf fe cli w).registry.searchPaths
          = stableMerge pf w.registry.searchPaths (QString.split v ';') ∧
        (loadProperties pf fe cli { w with config := config' }).registry.searchPaths
          = (loadProperties pf fe cli w).registry.searchPaths) := by
  constructor
  · intro v hv
    simp only [loadProperties_registry, loadBlackList_cli _ _ _ _ _ hv, and_self]
  · intro v hv
    simp only [loadProperties_registry, loadSearchPaths_cli _ _ _ _ _ hv, and_self]

/-- C1 at the input of the specification: empty existing lists, option `/a;/b`,
persisted `["/c"]`, non-Windows build. -/
theorem loadProperties_cli_precedence_witness :
    precedenceOptions.blackListOpt = some "/a;/b" ∧
    precedenceOptions.pluginPathsOpt = some "/a;/b" ∧
    persistedPaths precedenceWorld.config ["PluginBlackList"] "paths" = ["/c"] ∧
    persistedPaths precedenceWorld.config ["PluginConfigs"] "paths" = ["/c"] ∧
    (loadProperties .posix onlyReal precedenceOptions precedenceWorld).registry.pluginsBlackList
      = ["/a", "/b"] ∧
    (loadProperties .posix onlyReal precedenceOptions precedenceWorld).registry.searchPaths
      = ["/a", "/b"] :=
  ⟨rfl, rfl, by decide, by decide,
    ((loadProperties_cli_precedence .posix onlyReal precedenceOptions precedenceWorld
      precedenceWorld.config).1 "/a;/b" rfl).1.trans (by decide),
    ((loadProperties_cli_precedence .posix onlyReal precedenceOptions precedenceWorld
      precedenceWorld.config).2 "/a;/b" rfl).1.trans (by decide)⟩

/-- C2. Stable merge in `loadProperties` without the command-line option: the
blacklist (resp. the search-path list) pushed to the registry is the existing list
`E` followed by the normalized entries of the persisted array that are not in `E`,
each kept once at its first occurrence and in the order of the array; `E` is a
beginning of the result. -/
theorem loadProperties_stable_merge (pf : Platform) (fe : String → Bool) (cli : CliOptions)
    (w : World) :
    (cli.blackListOpt = none →
      (loadProperties pf fe cli w).registry.pluginsBlackList
          = w.registry.pluginsBlackList ++
            firstOccurrences
              (((persistedPaths w.config ["PluginBlackList"] "paths").map (normalize pf)).filter
                fun p => !w.registry.pluginsBlackList.contains p) ∧
        w.registry.pluginsBlackList <+: (loadProperties pf fe cli w).registry.pluginsBlackList) ∧
    (cli.pluginPathsOpt = none →
      (loadProperties pf fe cli w).registry.searchPaths
          = w.registry.searchPaths ++
            firstOccurrences
              (((persistedPaths w.config ["PluginConfigs"] "paths").map (normalize pf)).filter
                fun p => !w.registry.searchPaths.contains p) ∧
        w.registry.searchPaths <+: (loadProperties pf fe cli w).registry.searchPaths) := by
  constructor
  · intro h
    simp only [loadProperties_registry, loadBlackList_persisted _ _ _ _ h, stableMerge,
      true_and]
    exact List.prefix_append _ _
  · intro h
    simp only [loadProperties_registry, loadSearchPaths_persisted _ _ _ _ h, stableMerge,
      true_and]
    exact List.prefix_append _ _

/-- C2 at the input of the specification: existing `["/a"]`, persisted
`["/a", "/b"]`. -/
theorem loadProperties_stable_merge_witness :
    mergeWorld.registry.pluginsBlackList = ["/a"] ∧
    persistedPaths mergeWorld.config ["PluginBlackList"] "paths" = ["/a", "/b"] ∧
    (loadProperties .posix onlyReal noOptions mergeWorld).registry.pluginsBlackList
      = ["/a", "/b"] ∧
    (loadProperties .posix onlyReal noOptions mergeWorld).registry.searchPaths
      = ["/a", "/b"] :=
  ⟨rfl, by decide,
    ((loadProperties_stable_merge .posix onlyReal noOptions mergeWorld).1 rfl).1.trans
      (by decide),
    ((loadProperties_stable_merge .posix onlyReal noOptions mergeWorld).2 rfl).1.trans
      (by decide)⟩

/-- C3 as stated fails: with duplicate-free initial lists, a QML option naming a
path twice and a cache array holding a path twice, the QML list and the
plugin-path list pushed to the registry both hold an entry twice. -/
theorem loadProperties_duplicates_counterexample :
    duplicateWorld.registry.pluginsBlackList.Nodup ∧
    duplicateWorld.registry.searchPaths.Nodup ∧
    (loadProperties .posix (fun _ => true) duplicateOptions duplicateWorld).registry.qmlImportPathList
      = ["/q", "/q"] ∧
    (loadProperties .posix (fun _ => true) duplicateOptions duplicateWorld).registry.listPluginPaths
      = ["/p", "/p"] ∧
    ¬ (loadProperties .posix (fun _ => true) duplicateOptions
        duplicateWorld).registry.qmlImportPathList.Nodup ∧
    ¬ (loadProperties .posix (fun _ => true) duplicateOptions
        duplicateWorld).registry.listPluginPaths.Nodup := by
  decide

/-- C3, amended. If the registry's initial blacklist and search-path list have no
duplicates, the blacklist and the search-path list pushed by `loadProperties` have
none; the QML import-path list resolved from the persisted array (QML option not
set) has none; and the plugin-path list pushed is the path array of the cache
store as it stands, so it is duplicate-free exactly when that array is. -/
theorem loadProperties_no_duplicates (pf : Platform) (fe : String → Bool) (cli : CliOptions)
    (w : World) (hb : w.registry.pluginsBlackList.Nodup) (hs : w.registry.searchPaths.Nodup) :
    (loadProperties pf fe cli w).registry.pluginsBlackList.Nodup ∧
    (loadProperties pf fe cli w).registry.searchPaths.Nodup ∧
    (cli.qmlPathOpt = none → (loadQmlImportPaths pf fe cli w.config).Nodup) ∧
    (loadProperties pf fe cli w).registry.listPluginPaths
      = persistedPaths w.cacheConfig ["PluginsPaths"] "paths" := by
  simp only [loadProperties_registry, loadPluginsPaths_eq, and_true]
  refine ⟨?_, ?_, ?_⟩
  · cases h : cli.blackListOpt with
    | none => rw [loadBlackList_persisted _ _ _ _ h]; exact stableMerge_nodup _ _ _ hb
    | some v => rw [loadBlackList_cli _ _ _ _ _ h]; exact stableMerge_nodup _ _ _ hb
  · cases h : cli.pluginPathsOpt with
    | none => rw [loadSearchPaths_persisted _ _ _ _ h]; exact stableMerge_nodup _ _ _ hs
    | some v => rw [loadSearchPaths_cli _ _ _ _ _ h]; exact stableMerge_nodup _ _ _ hs
  · intro h
    rw [loadQmlImportPaths_persisted _ _ _ _ h]
    exact firstOccurrences_nodup _

/-- C3, amended, at existing lists `["/a"]` and persisted lists `["/a", "/b"]`. -/
theorem loadProperties_no_duplicates_witness :
    mergeWorld.registry.pluginsBlackList.Nodup ∧ mergeWorld.registry.searchPaths.Nodup ∧
    (loadProperties .posix onlyReal noOptions mergeWorld).registry.pluginsBlackList.Nodup ∧
    (loadProperties .posix onlyReal noOptions mergeWorld).registry.searchPaths.Nodup :=
  ⟨by decide, by decide,
    (loadProperties_no_duplicates .posix onlyReal noOptions mergeWorld (by decide)
      (by decide)).1,
    (loadProperties_no_duplicates .posix onlyReal noOptions mergeWorld (by decide)
      (by decide)).2.1⟩

/-- C4. Existence filter of the QML import paths: every entry of the list
`qmlImportPaths` resolved by `loadProperties`, from the command line or from the
persisted array, exists on the file system, and the registry's QML list after the
load is that list or, when it is empty, the list from before; whereas every
segment of the plugin search-path option is, once normalized (on the non-Windows
build: as it is), an entry of the search-path list pushed to the registry,
existing or not. -/
theorem loadProperties_qml_existence_filter (pf : Platform) (fe : String → Bool)
    (cli : CliOptions) (w : World) :
    (∀ p ∈ loadQmlImportPaths pf fe cli w.config, fe p = true) ∧
    ((loadProperties pf fe cli w).registry.qmlImportPathList
        = loadQmlImportPaths pf fe cli w.config ∨
      (loadQmlImportPaths pf fe cli w.config = [] ∧
        (loadProperties pf fe cli w).registry.qmlImportPathList
          = w.registry.qmlImportPathList)) ∧
    (∀ v, cli.pluginPathsOpt = some v → ∀ p ∈ QString.split v ';',
      normalize pf p ∈ (loadProperties pf fe cli w).registry.searchPaths) ∧
    (∀ p, normalize .posix p = p) := by
  refine ⟨?_, ?_, ?_, fun _ => rfl⟩
  · intro p hp
    cases h : cli.qmlPathOpt with
    | none =>
      rw [loadQmlImportPaths_persisted _ _ _ _ h, mem_firstOccurrences, List.mem_filter] at hp
      exact hp.2
    | some v =>
      rw [loadQmlImportPaths_cli _ _ _ _ _ h, List.mem_filter] at hp
      exact hp.2
  · simp only [loadProperties_registry]
    cases hq : loadQmlImportPaths pf fe cli w.config with
    | nil => right; simp
    | cons a l => left; simp
  · intro v hv p hp
    simp only [loadProperties_registry, loadSearchPaths_cli _ _ _ _ _ hv]
    rw [mem_stableMerge]
    right
    exact List.mem_map_of_mem _ hp

/-- C4 on a file system where only `/real` exists: `/ghost` is left out of the QML
list and is in the search-path list. -/
theorem loadProperties_qml_existence_filter_witness :
    onlyReal "/ghost" = false ∧
    loadQmlImportPaths .posix onlyReal ghostOptions precedenceWorld.config = ["/real"] ∧
    (∀ p ∈ loadQmlImportPaths .posix onlyReal ghostOptions precedenceWorld.config,
      onlyReal p = true) ∧
    "/ghost" ∈ (loadProperties .posix onlyReal ghostOptions precedenceWorld).registry.searchPaths :=
  ⟨by decide, by decide,
    (loadProperties_qml_existence_filter .posix onlyReal ghostOptions precedenceWorld).1,
    (loadProperties_qml_existence_filter .posix onlyReal ghostOptions precedenceWorld).2.2.1
      "/ghost" rfl "/ghost" (by decide)⟩

/-- C5 as stated fails: from empty existing lists, the option value `/a;;/b` makes
`loadProperties` push a blacklist and a search-path list that hold the empty
string. -/
theorem loadProperties_empty_segment_counterexample :
    "" ∉ precedenceWorld.registry.pluginsBlackList ∧
    "" ∉ precedenceWorld.registry.searchPaths ∧
    (loadProperties .posix onlyReal emptySegmentOptions precedenceWorld).registry.pluginsBlackList
      = ["/a", "", "/b"] ∧
    (loadProperties .posix onlyReal emptySegmentOptions precedenceWorld).registry.searchPaths
      = ["/a", "", "/b"] := by
  decide

/-- C5, amended. `loadProperties` skips no segment of a command-line list: every
segment of the value split at `;`, the empty ones too, is after normalization an
entry of the blacklist (resp. the search-path list) pushed to the registry; and a
value that is empty, has two adjacent `;` or ends in `;` has an empty segment. -/
theorem loadProperties_keeps_segments (pf : Platform) (fe : String → Bool) (cli : CliOptions)
    (w : World) (v seg : String) (hseg : seg ∈ QString.split v ';') :
    (cli.blackListOpt = some v →
      normalize pf seg ∈ (loadProperties pf fe cli w).registry.pluginsBlackList) ∧
    (cli.pluginPathsOpt = some v →
      normalize pf seg ∈ (loadProperties pf fe cli w).registry.searchPaths) ∧
    normalize .posix "" = "" ∧
    "" ∈ QString.split "" ';' ∧ "" ∈ QString.split "/a;;/b" ';' ∧
    "" ∈ QString.split "/a;" ';' := by
  refine ⟨?_, ?_, rfl, by decide, by decide, by decide⟩
  · intro h
    simp only [loadProperties_registry, loadBlackList_cli _ _ _ _ _ h]
    rw [mem_stableMerge]
    exact Or.inr (List.mem_map_of_mem _ hseg)
  · intro h
    simp only [loadProperties_registry, loadSearchPaths_cli _ _ _ _ _ h]
    rw [mem_stableMerge]
    exact Or.inr (List.mem_map_of_mem _ hseg)

/-- C5, amended, at the value `/a;;/b` on the non-Windows build. -/
theorem loadProperties_keeps_segments_witness :
    "" ∈ QString.split "/a;;/b" ';' ∧
    "" ∈ (loadProperties .posix onlyReal emptySegmentOptions
      precedenceWorld).registry.pluginsBlackList ∧
    "" ∈ (loadProperties .posix onlyReal emptySegmentOptions
      precedenceWorld).registry.searchPaths :=
  ⟨by decide,
    (loadProperties_keeps_segments .posix onlyReal emptySegmentOptions precedenceWorld
      "/a;;/b" "" (by decide)).1 rfl,
    (loadProperties_keeps_segments .posix onlyReal emptySegmentOptions precedenceWorld
      "/a;;/b" "" (by decide)).2.1 rfl⟩

/-- C6. Change notification of `saveProperties`: it emits `pluginsChanged` exactly
when the registry's plugin-path list differs from `m_plugins`; then it emits once,
with that list as payload, and `m_plugins` is that list afterwards; when the two
are equal it emits nothing and `m_plugins` stays as it is.  Hence a save right
after `loadProperties`, or right after another save, emits nothing. -/
theorem saveProperties_change_notification (pf : Platform) (fe : String → Bool)
    (cli : CliOptions) (w : World) :
    (w.m_plugins ≠ w.registry.listPluginPaths →
      (saveProperties pf w).emitted = w.emitted ++ [w.registry.listPluginPaths] ∧
      (saveProperties pf w).m_plugins = w.registry.listPluginPaths) ∧
    (w.m_plugins = w.registry.listPluginPaths →
      (saveProperties pf w).emitted = w.emitted ∧
      (saveProperties pf w).m_plugins = w.m_plugins) ∧
    ((saveProperties pf w).emitted ≠ w.emitted ↔ w.m_plugins ≠ w.registry.listPluginPaths) ∧
    (saveProperties pf (loadProperties pf fe cli w)).emitted
      = (loadProperties pf fe cli w).emitted ∧
    (saveProperties pf (saveProperties pf w)).emitted = (saveProperties pf w).emitted := by
  refine ⟨?_, ?_, ?_, ?_, ?_⟩
  · intro h
    rw [saveProperties_emitted, saveProperties_m_plugins, if_neg h]
    exact ⟨rfl, rfl⟩
  · intro h
    rw [saveProperties_emitted, saveProperties_m_plugins, if_pos h]
    exact ⟨rfl, h.symm⟩
  · rw [saveProperties_emitted]
    by_cases h : w.m_plugins = w.registry.listPluginPaths
    · simp [h]
    · simp [h]
  · rw [saveProperties_emitted, if_pos]
    rfl
  · rw [saveProperties_emitted (w := saveProperties pf w), if_pos]
    rw [saveProperties_m_plugins, saveProperties_registry]

/-- C6 on a state whose registry lists one plugin while `m_plugins` is empty: the
first save emits the list once, a second save emits nothing more. -/
theorem saveProperties_change_notification_witness :
    freshWorld.m_plugins ≠ freshWorld.registry.listPluginPaths ∧
    (saveProperties .posix freshWorld).emitted = [["/lib/libFoo.so"]] ∧
    (saveProperties .posix freshWorld).m_plugins = ["/lib/libFoo.so"] ∧
    (saveProperties .posix (saveProperties .posix freshWorld)).emitted
      = [["/lib/libFoo.so"]] :=
  ⟨by decide,
    ((saveProperties_change_notification .posix onlyHere noOptions freshWorld).1
      (by decide)).1,
    ((saveProperties_change_notification .posix onlyHere noOptions freshWorld).1
      (by decide)).2,
    (saveProperties_change_notification .posix onlyHere noOptions freshWorld).2.2.2.2.trans
      ((saveProperties_change_notification .posix onlyHere noOptions freshWorld).1
        (by decide)).1⟩

/-- C7 as stated fails: a QML import path of the registry that does not exist is
gone after a save followed by a load, and a key that an earlier save left in the
cache group of a plugin turns up in the plugin info of the registry. -/
theorem save_load_roundtrip_counterexample :
    staleWorld.registry.qmlImportPathList = ["/here", "/gone"] ∧
    (loadProperties .posix onlyHere noOptions
      (saveProperties .posix staleWorld)).registry.qmlImportPathList = ["/here"] ∧
    staleWorld.registry.listPluginPaths = ["/lib/libFoo.so"] ∧
    staleWorld.registry.pluginId "/lib/libFoo.so" = "Foo" ∧
    (staleWorld.registry.pluginInfo "Foo").lookup "old" = none ∧
    ((loadProperties .posix onlyHere noOptions
      (saveProperties .posix staleWorld)).registry.pluginInfo "Foo").lookup "old"
        = some (QVariant.string "1") := by
  decide

/-- C7, amended. On the non-Windows build, `saveProperties` followed by
`loadProperties` with no option set leaves the registry with the same blacklist,
search-path list, plugin-path list and recursive flag, for every registry and
every prior content of the stores.  The QML import-path list becomes its existing
entries, each once (it stays as it was when none of them exists), so it is the
same when its entries exist and are distinct.  The plugin info of a listed plugin
path has the same value at every key when the ids of the listed plugins contain
no `/`, their info keys are plain names, and the cache store held, in the group
of that plugin before the save, no other keys than keys of that info. -/
theorem save_load_roundtrip (fe : String → Bool) (w : World) :
    (loadProperties .posix fe noOptions (saveProperties .posix w)).registry.pluginsBlackList
      = w.registry.pluginsBlackList ∧
    (loadProperties .posix fe noOptions (saveProperties .posix w)).registry.searchPaths
      = w.registry.searchPaths ∧
    (loadProperties .posix fe noOptions (saveProperties .posix w)).registry.listPluginPaths
      = w.registry.listPluginPaths ∧
    (loadProperties .posix fe noOptions (saveProperties .posix w)).registry.recursiveSearch
      = w.registry.recursiveSearch ∧
    (loadProperties .posix fe noOptions (saveProperties .posix w)).registry.qmlImportPathList
      = (if w.registry.qmlImportPathList.filter fe = [] then w.registry.qmlImportPathList
         else firstOccurrences (w.registry.qmlImportPathList.filter fe)) ∧
    (w.registry.qmlImportPathList.Nodup → (∀ p ∈ w.registry.qmlImportPathList, fe p = true) →
      (loadProperties .posix fe noOptions (saveProperties .posix w)).registry.qmlImportPathList
        = w.registry.qmlImportPathList) ∧
    (∀ path ∈ w.registry.listPluginPaths,
      (∀ q ∈ w.registry.listPluginPaths, '/' ∉ (w.registry.pluginId q).data) →
      (∀ q ∈ w.registry.listPluginPaths,
        ∀ key ∈ (w.registry.pluginInfo (w.registry.pluginId q)).keys, plainName key) →
      (∀ e ∈ w.cacheConfig.entries, pluginGroup (w.registry.pluginId path) <+: e.1 →
        ∃ key ∈ (w.registry.pluginInfo (w.registry.pluginId path)).keys,
          e.1 = pluginGroup (w.registry.pluginId path) ++ [key]) →
      ∀ key,
        ((loadProperties .posix fe noOptions (saveProperties .posix w)).registry.pluginInfo
            (w.registry.pluginId path)).lookup key
          = (w.registry.pluginInfo (w.registry.pluginId path)).lookup key) := by
  have hq : loadQmlImportPaths .posix fe noOptions (saveProperties .posix w).config
      = firstOccurrences (w.registry.qmlImportPathList.filter fe) := by
    rw [loadQmlImportPaths_persisted _ _ _ _ rfl, persistedPaths_qmlPaths_saved,
      map_storedPath_posix, map_normalize_posix]
  have hqml : (loadProperties .posix fe noOptions
        (saveProperties .posix w)).registry.qmlImportPathList
      = (if w.registry.qmlImportPathList.filter fe = [] then w.registry.qmlImportPathList
         else firstOccurrences (w.registry.qmlImportPathList.filter fe)) := by
    simp only [loadProperties_registry, hq, saveProperties_registry]
    cases hf : w.registry.qmlImportPathList.filter fe with
    | nil => simp [firstOccurrences]
    | cons a l => simp [firstOccurrences]
  have hpaths : loadPluginsPaths (saveProperties .posix w).cacheConfig
      = w.registry.listPluginPaths := by
    rw [loadPluginsPaths_eq, persistedPaths_pluginsPaths_saved]
  refine ⟨?_, ?_, ?_, ?_, hqml, ?_, ?_⟩
  · simp only [loadProperties_registry, saveProperties_registry]
    rw [loadBlackList_persisted _ _ _ _ rfl, persistedPaths_blackList_saved,
      map_storedPath_posix, stableMerge_self]
  · simp only [loadProperties_registry, saveProperties_registry]
    rw [loadSearchPaths_persisted _ _ _ _ rfl, persistedPaths_paths_saved,
      map_storedPath_posix, stableMerge_self]
  · simp only [loadProperties_registry, hpaths]
  · simp [loadProperties_registry, lookup_recursive_saved, noOptions, QVariant.toBool]
  · intro hnd hex
    rw [hqml]
    have hfil : w.registry.qmlImportPathList.filter fe = w.registry.qmlImportPathList := by
      rw [List.filter_eq_self]; exact hex
    rw [hfil, firstOccurrences_of_nodup _ hnd]
    simp
  · intro path hpath hid hkeys hfresh key
    have hmem : w.registry.pluginId path
        ∈ w.registry.listPluginPaths.map w.registry.pluginId :=
      List.mem_map_of_mem _ hpath
    simp only [loadProperties_registry, hpaths, saveProperties_registry, hmem, if_true]
    exact loadPluginInfo_saved .posix w path hpath hid hkeys hfresh key

/-- C7, amended, on a registry with one plugin whose QML path exists and a cache
store that holds version `1` of the plugin before the save. -/
theorem save_load_roundtrip_witness :
    freshWorld.registry.qmlImportPathList.Nodup ∧
    (∀ p ∈ freshWorld.registry.qmlImportPathList, onlyHere p = true) ∧
    (loadProperties .posix onlyHere noOptions
      (saveProperties .posix freshWorld)).registry.qmlImportPathList = ["/here"] ∧
    ((loadProperties .posix onlyHere noOptions
      (saveProperties .posix freshWorld)).registry.pluginInfo "Foo").lookup "version"
        = some (QVariant.string "2") :=
  ⟨by decide, by decide,
    (save_load_roundtrip onlyHere freshWorld).2.2.2.2.2.1 (by decide) (by decide),
    ((save_load_roundtrip onlyHere freshWorld).2.2.2.2.2.2 "/lib/libFoo.so" (by decide)
      (by decide) (by decide) (by decide) "version").trans (by decide)⟩

/-- C8. Resolution of the recursive flag in `loadProperties`: with the recursive
option set the registry's flag becomes true whatever is persisted; otherwise, when
the settings store has the key `PluginConfigs/recursive`, the flag becomes the
boolean value of that key; otherwise the flag stays as it was. -/
theorem loadProperties_recursive (pf : Platform) (fe : String → Bool) (cli : CliOptions)
    (w : World) :
    (cli.recursiveOpt = true → (loadProperties pf fe cli w).registry.recursiveSearch = true) ∧
    (cli.recursiveOpt = false → ∀ v,
      w.config.entries.lookup ["PluginConfigs", "recursive"] = some v →
      (loadProperties pf fe cli w).registry.recursiveSearch = v.toBool) ∧
    (cli.recursiveOpt = false →
      w.config.entries.lookup ["PluginConfigs", "recursive"] = none →
      (loadProperties pf fe cli w).registry.recursiveSearch = w.registry.recursiveSearch) ∧
    (w.config.contains (beginGroup [] "PluginConfigs") "recursive"
      = (w.config.entries.lookup ["PluginConfigs", "recursive"]).isSome) := by
  refine ⟨?_, ?_, ?_, rfl⟩
  · intro h
    simp [loadProperties_registry, h]
  · intro h v hv
    simp [loadProperties_registry, h, hv]
  · intro h hv
    simp [loadProperties_registry, h, hv]

/-- C8 on a store with `recursive` set to true and on an empty store, from a
registry whose flag is off. -/
theorem loadProperties_recursive_witness :
    recursiveWorld.registry.recursiveSearch = false ∧
    (loadProperties .posix onlyReal recursiveOptions freshWorld).registry.recursiveSearch
      = true ∧
    (loadProperties .posix onlyReal noOptions recursiveWorld).registry.recursiveSearch
      = true ∧
    (loadProperties .posix onlyReal noOptions duplicateWorld).registry.recursiveSearch
      = false :=
  ⟨rfl,
    (loadProperties_recursive .posix onlyReal recursiveOptions freshWorld).1 rfl,
    (loadProperties_recursive .posix onlyReal noOptions recursiveWorld).2.1 rfl
      (QVariant.bool true) (by decide),
    (loadProperties_recursive .posix onlyReal noOptions duplicateWorld).2.2.1 rfl
      (by decide)⟩

/-- C9. Independence from the cache store: the blacklist, the QML import paths,
the recursive flag and the search paths that `loadProperties` leaves in the
registry are the same whatever cache store `cache'` is read; and with an empty
cache store the plugin-path list pushed is empty and every plugin info of the
registry stays as it was. -/
theorem loadProperties_cache_independence (pf : Platform) (fe : String → Bool)
    (cli : CliOptions) (w : World) (cache' : QSettings) :
    ((loadProperties pf fe cli { w with cacheConfig := cache' }).registry.pluginsBlackList
        = (loadProperties pf fe cli w).registry.pluginsBlackList ∧
      (loadProperties pf fe cli { w with cacheConfig := cache' }).registry.qmlImportPathList
        = (loadProperties pf fe cli w).registry.qmlImportPathList ∧
      (loadProperties pf fe cli { w with cacheConfig := cache' }).registry.recursiveSearch
        = (loadProperties pf fe cli w).registry.recursiveSearch ∧
      (loadProperties pf fe cli { w with cacheConfig := cache' }).registry.searchPaths
        = (loadProperties pf fe cli w).registry.searchPaths) ∧
    (w.cacheConfig.entries = [] →
      (loadProperties pf fe cli w).registry.listPluginPaths = [] ∧
      (loadProperties pf fe cli w).registry.pluginInfo = w.registry.pluginInfo) := by
  constructor
  · simp only [loadProperties_registry, and_self]
  · intro h
    have hp : loadPluginsPaths w.cacheConfig = [] := by
      simp [loadPluginsPaths, QSettings.beginReadArray, QSettings.value, h, QVariant.toInt]
    simp only [loadProperties_registry, hp, List.map_nil, List.not_mem_nil, if_false, and_self]

/-- C9 on a state with persisted lists and an empty cache store, against the same
state with a cache store listing a plugin. -/
theorem loadProperties_cache_independence_witness :
    precedenceWorld.cacheConfig.entries = [] ∧
    (loadProperties .posix onlyReal noOptions cachedWorld).registry.pluginsBlackList
      = (loadProperties .posix onlyReal noOptions precedenceWorld).registry.pluginsBlackList ∧
    (loadProperties .posix onlyReal noOptions precedenceWorld).registry.pluginsBlackList
      = ["/c"] ∧
    (loadProperties .posix onlyReal noOptions precedenceWorld).registry.listPluginPaths = [] :=
  ⟨rfl,
    (loadProperties_cache_independence .posix onlyReal noOptions precedenceWorld
      cachedWorld.cacheConfig).1.1,
    by decide,
    ((loadProperties_cache_independence .posix onlyReal noOptions precedenceWorld
      cachedWorld.cacheConfig).2 rfl).1⟩

/-- C10 as stated fails: from a state whose `m_plugins` is empty and whose cache
store lists the plugin path `/p`, `loadProperties` leaves `m_plugins` equal to
`["/p"]`. -/
theorem loadProperties_m_plugins_counterexample :
    cachedWorld.m_plugins = [] ∧
    (loadProperties .posix onlyReal noOptions cachedWorld).m_plugins = ["/p"] ∧
    (loadProperties .posix onlyReal noOptions cachedWorld).m_plugins ≠ cachedWorld.m_plugins := by
  decide

/-- C10, amended. `m_plugins` is assigned in `saveProperties` and also at the end
of `loadProperties`, which sets it, whatever it was before, to the registry's
plugin-path list after the load, that is to the path array read from the cache
store; `saveProperties` sets it to the registry's plugin-path list. -/
theorem loadProperties_sets_m_plugins (pf : Platform) (fe : String → Bool) (cli : CliOptions)
    (w : World) :
    (loadProperties pf fe cli w).m_plugins
      = (loadProperties pf fe cli w).registry.listPluginPaths ∧
    (loadProperties pf fe cli w).m_plugins
      = persistedPaths w.cacheConfig ["PluginsPaths"] "paths" ∧
    (saveProperties pf w).m_plugins = w.registry.listPluginPaths := by
  refine ⟨?_, ?_, saveProperties_m_plugins pf w⟩
  · rw [loadProperties_m_plugins, loadProperties_registry]
  · rw [loadProperties_m_plugins, loadPluginsPaths_eq]

end PluginConfigs
